import Mathlib

/-!
Verification of the `ptab` lock-free fixed-capacity table (sequential semantics).

The development shallowly embeds the identifier algebra of `src/index.rs` /
`src/params.rs` and the table operations of `src/table.rs`.  Machine integers
(`usize`, `u32`) are modelled as `Nat` with explicit `% 2^64` / `% 2^32`
wrapping where the source relies on wrapping arithmetic.  The concurrent
atomics of the source are interpreted under single-threaded execution: each
atomic read-modify-write happens atomically in program order, so a
compare-exchange whose expected value was just produced by this same thread
succeeds on its first attempt.  Loops of the source (`acquire_slot`,
`release_slot`'s CAS loop) are embedded with an explicit fuel argument; the
well-formedness invariant proves they exit on their first iteration in
sequential executions.
-/

namespace Ptab

/-- `usize::MAX + 1`: the modulus of 64-bit machine words. -/
def USIZE : Nat := 2 ^ 64

/-- `u32::MAX + 1`: the modulus of the 32-bit counters
(`entries`, `next_id`, `free_id`). -/
def U32 : Nat := 2 ^ 32

/-- `const RESERVED: usize = usize::MAX` (table.rs): marker for a slot whose
allocation is in progress. -/
def RESERVED : Nat := 2 ^ 64 - 1

/-- Bitwise complement on 64-bit words: Rust's `!x` for `x: usize`
(the argument fits in 64 bits wherever this is used). -/
def usizeNot (x : Nat) : Nat := (2 ^ 64 - 1) ^^^ x

/-- Table parameters.  The source (`params.rs`) stores the validated
power-of-two capacity `LENGTH = 2^lgN` and the platform constant
`CACHE_LINE_SLOTS = 2^lgS` (16 on x86-64/aarch64: a 128-byte cache line over
8-byte words); we parameterise by the two exponents, which is equivalent for
validated parameters. -/
structure Params where
  lgS : Nat
  lgN : Nat

/-- `CACHE_LINE_SLOTS`: slots per cache line. -/
def Params.S (P : Params) : Nat := 2 ^ P.lgS

/-- `P::LENGTH`: the capacity N. -/
def Params.LENGTH (P : Params) : Nat := 2 ^ P.lgN

/-- `P::BLOCKS = N / CACHE_LINE_SLOTS` (params.rs `derive_blocks`, for
`CACHE_LINE_SLOTS ≤ N`, which holds on all supported configurations). -/
def Params.BLOCKS (P : Params) : Nat := 2 ^ (P.lgN - P.lgS)

/-- `ID_MASK_BITS = LENGTH.log2()`. -/
def Params.ID_MASK_BITS (P : Params) : Nat := P.lgN

/-- `ID_MASK_ENTRY = (1 << ID_MASK_BITS) - 1`. -/
def Params.ID_MASK_ENTRY (P : Params) : Nat := 2 ^ P.lgN - 1

/-- `ID_MASK_BLOCK = BLOCKS - 1`. -/
def Params.ID_MASK_BLOCK (P : Params) : Nat := P.BLOCKS - 1

/-- `ID_MASK_INDEX = CACHE_LINE_SLOTS - 1`. -/
def Params.ID_MASK_INDEX (P : Params) : Nat := P.S - 1

/-- `ID_SHIFT_BLOCK = ID_MASK_INDEX.trailing_ones()`; the trailing ones of
`2^lgS - 1` are `lgS`. -/
def Params.ID_SHIFT_BLOCK (P : Params) : Nat := P.lgS

/-- `ID_SHIFT_INDEX = ID_MASK_BLOCK.trailing_ones()`; the trailing ones of
`2^(lgN-lgS) - 1` are `lgN - lgS`. -/
def Params.ID_SHIFT_INDEX (P : Params) : Nat := P.lgN - P.lgS

/-- Validated parameters: `CACHE_LINE_SLOTS ≤ N` and `N` a power of two in
`[2^4, 2^27]` (`Capacity::MIN ..= Capacity::MAX`). -/
def Params.Ok (P : Params) : Prop := P.lgS ≤ P.lgN ∧ 4 ≤ P.lgN ∧ P.lgN ≤ 27

instance (P : Params) : Decidable P.Ok := by
  unfold Params.Ok; infer_instance

/-- The x86-64 instantiation with the minimum capacity 16
(`CACHE_LINE_SLOTS = 16`, `N = 16`). -/
def P16 : Params := ⟨4, 4⟩

/-- The x86-64 instantiation with capacity 32. -/
def P32 : Params := ⟨4, 5⟩

-- -----------------------------------------------------------------------------
-- Index mapping (index.rs)
-- -----------------------------------------------------------------------------

/-- `detached_to_abstract` (index.rs): rebuilds the sequential index from the
public index. -/
def detachedToAbstract (P : Params) (d : Nat) : Nat :=
  (d &&& usizeNot P.ID_MASK_ENTRY) |||
    ((d >>> P.ID_SHIFT_BLOCK) &&& P.ID_MASK_BLOCK) |||
    ((d &&& P.ID_MASK_INDEX) <<< P.ID_SHIFT_INDEX)

/-- `detached_to_concrete` (index.rs): the physical array offset of a public
index. -/
def detachedToConcrete (P : Params) (d : Nat) : Nat :=
  d &&& P.ID_MASK_ENTRY

/-- `abstract_to_concrete` (index.rs): the cache-aware physical offset of a
sequential index. -/
def abstractToConcrete (P : Params) (a : Nat) : Nat :=
  ((a &&& P.ID_MASK_BLOCK) <<< P.ID_SHIFT_BLOCK) +
    ((a >>> P.ID_SHIFT_INDEX) &&& P.ID_MASK_INDEX)

/-- `abstract_to_detached` (index.rs): the public form of a sequential index. -/
def abstractToDetached (P : Params) (a : Nat) : Nat :=
  (a &&& usizeNot P.ID_MASK_ENTRY) ||| abstractToConcrete P a

-- -----------------------------------------------------------------------------
-- Arithmetic characterisation of the bitwise conversions
-- -----------------------------------------------------------------------------

theorem blocks_pos (P : Params) : 0 < P.BLOCKS := by
  rw [Params.BLOCKS]; exact Nat.two_pow_pos _

theorem s_pos (P : Params) : 0 < P.S := by
  rw [Params.S]; exact Nat.two_pow_pos _

theorem length_pos (P : Params) : 0 < P.LENGTH := by
  rw [Params.LENGTH]; exact Nat.two_pow_pos _

theorem blocks_dvd_length (P : Params) : P.BLOCKS ∣ P.LENGTH :=
  Nat.pow_dvd_pow 2 (Nat.sub_le _ _)

theorem blocks_mul_s (P : Params) (hSN : P.lgS ≤ P.lgN) :
    P.BLOCKS * P.S = P.LENGTH := by
  rw [Params.BLOCKS, Params.S, Params.LENGTH, ← Nat.pow_add]
  congr 1
  omega

theorem s_mul_blocks (P : Params) (hSN : P.lgS ≤ P.lgN) :
    P.S * P.BLOCKS = P.LENGTH := by
  rw [Nat.mul_comm]
  exact blocks_mul_s P hSN

/-- `x & !ID_MASK_ENTRY` keeps the generation bits: for a 64-bit `x` it equals
`(x / N) * N`. -/
theorem and_not_mask_entry (P : Params) (hN : P.lgN ≤ 64) {x : Nat}
    (hx : x < USIZE) : x &&& usizeNot P.ID_MASK_ENTRY = x / 2 ^ P.lgN * 2 ^ P.lgN := by
  have hx64 : x < 2 ^ 64 := hx
  have hR : x / 2 ^ P.lgN * 2 ^ P.lgN = (x >>> P.lgN) <<< P.lgN := by
    rw [Nat.shiftLeft_eq, Nat.shiftRight_eq_div_pow]
  rw [hR]
  apply Nat.eq_of_testBit_eq
  intro i
  simp only [usizeNot, Params.ID_MASK_ENTRY, Nat.testBit_and, Nat.testBit_xor,
    Nat.testBit_two_pow_sub_one, Nat.testBit_shiftLeft, Nat.testBit_shiftRight,
    ge_iff_le]
  by_cases h1 : i < P.lgN
  · have h64 : i < 64 := lt_of_lt_of_le h1 hN
    simp [h1, h64, Nat.not_le_of_gt h1]
  · have hidx : P.lgN + (i - P.lgN) = i := by omega
    by_cases h64 : i < 64
    · simp [h64, h1, Nat.not_lt.mp h1, hidx]
    · have hbf : Nat.testBit x i = false := Nat.testBit_lt_two_pow
        (lt_of_lt_of_le hx64 (Nat.pow_le_pow_right (by norm_num) (by omega)))
      simp [h1, h64, hidx, hbf]

theorem abstractToConcrete_eq (P : Params) (a : Nat) :
    abstractToConcrete P a = a % P.BLOCKS * P.S + a / P.BLOCKS % P.S := by
  simp only [abstractToConcrete, Params.ID_MASK_BLOCK, Params.ID_MASK_INDEX,
    Params.ID_SHIFT_BLOCK, Params.ID_SHIFT_INDEX, Params.BLOCKS, Params.S,
    Nat.and_pow_two_sub_one_eq_mod, Nat.shiftLeft_eq, Nat.shiftRight_eq_div_pow]

theorem abstractToConcrete_lt (P : Params) (hSN : P.lgS ≤ P.lgN) (a : Nat) :
    abstractToConcrete P a < P.LENGTH := by
  rw [abstractToConcrete_eq]
  have hB := blocks_pos P
  have hS := s_pos P
  have h1 : a % P.BLOCKS ≤ P.BLOCKS - 1 := by
    have := Nat.mod_lt a hB
    omega
  have h2 : a / P.BLOCKS % P.S ≤ P.S - 1 := by
    have := Nat.mod_lt (a / P.BLOCKS) hS
    omega
  calc a % P.BLOCKS * P.S + a / P.BLOCKS % P.S
      ≤ (P.BLOCKS - 1) * P.S + (P.S - 1) :=
        Nat.add_le_add (Nat.mul_le_mul_right _ h1) h2
    _ < P.BLOCKS * P.S := by
        rw [Nat.sub_one_mul]
        have : P.S ≤ P.BLOCKS * P.S := Nat.le_mul_of_pos_left _ hB
        omega
    _ = P.LENGTH := blocks_mul_s P hSN

/-- `abstract_to_concrete` depends only on the value modulo N. -/
theorem abstractToConcrete_mod (P : Params) (hSN : P.lgS ≤ P.lgN) (a : Nat) :
    abstractToConcrete P (a % P.LENGTH) = abstractToConcrete P a := by
  rw [abstractToConcrete_eq, abstractToConcrete_eq]
  have h1 : a % P.LENGTH % P.BLOCKS = a % P.BLOCKS :=
    Nat.mod_mod_of_dvd a (blocks_dvd_length P)
  have h2 : a % P.LENGTH / P.BLOCKS = a / P.BLOCKS % P.S := by
    rw [← blocks_mul_s P hSN, Nat.mod_mul_right_div_self]
  rw [h1, h2, Nat.mod_mod_of_dvd _ (dvd_refl P.S)]

theorem abstractToConcrete_congr (P : Params) (hSN : P.lgS ≤ P.lgN) {a b : Nat}
    (h : a % P.LENGTH = b % P.LENGTH) :
    abstractToConcrete P a = abstractToConcrete P b := by
  rw [← abstractToConcrete_mod P hSN a, ← abstractToConcrete_mod P hSN b, h]

/-- Base-(B,S) digit expansion of a value modulo N. -/
theorem mod_length_expand (P : Params) (hSN : P.lgS ≤ P.lgN) (a : Nat) :
    a % P.LENGTH = a / P.BLOCKS % P.S * P.BLOCKS + a % P.BLOCKS := by
  have e1 : P.BLOCKS * (a % P.LENGTH / P.BLOCKS) + a % P.LENGTH % P.BLOCKS
      = a % P.LENGTH := Nat.div_add_mod _ _
  have e2 : a % P.LENGTH / P.BLOCKS = a / P.BLOCKS % P.S := by
    rw [← blocks_mul_s P hSN, Nat.mod_mul_right_div_self]
  have e3 : a % P.LENGTH % P.BLOCKS = a % P.BLOCKS :=
    Nat.mod_mod_of_dvd a (blocks_dvd_length P)
  rw [e2, e3] at e1
  rw [← e1, Nat.mul_comm P.BLOCKS (a / P.BLOCKS % P.S)]

/-- Uniqueness of the (block, offset) digits of a concrete offset. -/
theorem digit_div (P : Params) (q r : Nat) (hr : r < P.S) :
    (q * P.S + r) / P.S = q := by
  rw [Nat.mul_comm, Nat.mul_add_div (s_pos P), Nat.div_eq_of_lt hr]
  omega

theorem digit_mod (P : Params) (q r : Nat) (hr : r < P.S) :
    (q * P.S + r) % P.S = r := by
  rw [Nat.mul_comm, Nat.mul_add_mod]
  exact Nat.mod_eq_of_lt hr

/-- `abstract_to_concrete` is injective modulo N. -/
theorem abstractToConcrete_inj_mod (P : Params) (hSN : P.lgS ≤ P.lgN) {a b : Nat}
    (h : abstractToConcrete P a = abstractToConcrete P b) :
    a % P.LENGTH = b % P.LENGTH := by
  rw [abstractToConcrete_eq, abstractToConcrete_eq] at h
  have hS := s_pos P
  have ha1 : a / P.BLOCKS % P.S < P.S := Nat.mod_lt _ hS
  have hb1 : b / P.BLOCKS % P.S < P.S := Nat.mod_lt _ hS
  have hq : a % P.BLOCKS = b % P.BLOCKS := by
    have := congrArg (· / P.S) h
    simpa [digit_div P _ _ ha1, digit_div P _ _ hb1] using this
  have hr : a / P.BLOCKS % P.S = b / P.BLOCKS % P.S := by
    have := congrArg (· % P.S) h
    simpa [digit_mod P _ _ ha1, digit_mod P _ _ hb1] using this
  rw [mod_length_expand P hSN, mod_length_expand P hSN, hq, hr]

/-- Characterisation of `detached_to_concrete`: the low `lg N` bits. -/
theorem detachedToConcrete_eq (P : Params) (d : Nat) :
    detachedToConcrete P d = d % P.LENGTH := by
  simp only [detachedToConcrete, Params.ID_MASK_ENTRY, Params.LENGTH,
    Nat.and_pow_two_sub_one_eq_mod]

theorem detachedToConcrete_lt (P : Params) (d : Nat) :
    detachedToConcrete P d < P.LENGTH := by
  rw [detachedToConcrete_eq]
  exact Nat.mod_lt _ (length_pos P)

/-- Characterisation of `abstract_to_detached`: generation bits stay in place,
the low `lg N` bits are replaced by the concrete offset. -/
theorem abstractToDetached_eq (P : Params) (hSN : P.lgS ≤ P.lgN) (hN : P.lgN ≤ 64)
    {a : Nat} (ha : a < USIZE) :
    abstractToDetached P a = a / P.LENGTH * P.LENGTH + abstractToConcrete P a := by
  unfold abstractToDetached
  rw [and_not_mask_entry P hN ha]
  have hc : abstractToConcrete P a < 2 ^ P.lgN := by
    rw [← Params.LENGTH]
    exact abstractToConcrete_lt P hSN a
  have h1 := Nat.mul_add_lt_is_or hc (a / 2 ^ P.lgN)
  rw [Nat.mul_comm] at h1
  rw [← h1, Params.LENGTH]

/-- Characterisation of `detached_to_abstract`. -/
theorem detachedToAbstract_eq (P : Params) (hSN : P.lgS ≤ P.lgN) (hN : P.lgN ≤ 64)
    {d : Nat} (hd : d < USIZE) :
    detachedToAbstract P d
      = d / P.LENGTH * P.LENGTH + d % P.S * P.BLOCKS + d / P.S % P.BLOCKS := by
  unfold detachedToAbstract
  rw [and_not_mask_entry P hN hd]
  have hY : (d >>> P.ID_SHIFT_BLOCK) &&& P.ID_MASK_BLOCK = d / P.S % P.BLOCKS := by
    simp only [Params.ID_MASK_BLOCK, Params.ID_SHIFT_BLOCK, Params.BLOCKS, Params.S,
      Nat.shiftRight_eq_div_pow, Nat.and_pow_two_sub_one_eq_mod]
  have hZ : (d &&& P.ID_MASK_INDEX) <<< P.ID_SHIFT_INDEX = d % P.S * P.BLOCKS := by
    simp only [Params.ID_MASK_INDEX, Params.ID_SHIFT_INDEX, Params.BLOCKS, Params.S,
      Nat.and_pow_two_sub_one_eq_mod, Nat.shiftLeft_eq]
  rw [hY, hZ, Nat.lor_assoc]
  have hB := blocks_pos P
  have hS := s_pos P
  have hYlt : d / P.S % P.BLOCKS < P.BLOCKS := Nat.mod_lt _ hB
  have h1 : d / P.S % P.BLOCKS ||| d % P.S * P.BLOCKS
      = d % P.S * P.BLOCKS + d / P.S % P.BLOCKS := by
    rw [Nat.lor_comm]
    have hYlt2 : d / P.S % P.BLOCKS < 2 ^ (P.lgN - P.lgS) := by
      rw [← Params.BLOCKS]
      exact hYlt
    have h2 := Nat.mul_add_lt_is_or hYlt2 (d % P.S)
    rw [← Params.BLOCKS, Nat.mul_comm P.BLOCKS (d % P.S)] at h2
    exact h2.symm
  rw [h1]
  have hsum : d % P.S * P.BLOCKS + d / P.S % P.BLOCKS < 2 ^ P.lgN := by
    rw [← Params.LENGTH]
    have hd1 : d % P.S ≤ P.S - 1 := by
      have := Nat.mod_lt d hS
      omega
    calc d % P.S * P.BLOCKS + d / P.S % P.BLOCKS
        ≤ (P.S - 1) * P.BLOCKS + (P.BLOCKS - 1) :=
          Nat.add_le_add (Nat.mul_le_mul_right _ hd1) (by omega)
      _ < P.S * P.BLOCKS := by
          rw [Nat.sub_one_mul]
          have : P.BLOCKS ≤ P.S * P.BLOCKS := Nat.le_mul_of_pos_left _ hS
          omega
      _ = P.LENGTH := s_mul_blocks P hSN
  have h3 := Nat.mul_add_lt_is_or hsum (d / 2 ^ P.lgN)
  rw [Nat.mul_comm] at h3
  rw [← h3, Params.LENGTH, Nat.add_assoc]

/-- The abstract → detached → abstract round-trip is the identity on 64-bit
values. -/
theorem roundtrip_abstract_detached (P : Params) (hSN : P.lgS ≤ P.lgN)
    (hN : P.lgN ≤ 64) {a : Nat} (ha : a < USIZE) :
    detachedToAbstract P (abstractToDetached P a) = a := by
  have hB := blocks_pos P
  have hS := s_pos P
  have hNpos := length_pos P
  have hc : abstractToConcrete P a < P.LENGTH := abstractToConcrete_lt P hSN a
  have hd : abstractToDetached P a < USIZE := by
    rw [abstractToDetached_eq P hSN hN ha]
    have hdvd : P.LENGTH ∣ USIZE := by
      rw [Params.LENGTH, USIZE]
      exact Nat.pow_dvd_pow 2 hN
    have h1 : a / P.LENGTH < USIZE / P.LENGTH :=
      Nat.div_lt_div_of_lt_of_dvd hdvd ha
    have h2 : USIZE / P.LENGTH * P.LENGTH = USIZE := Nat.div_mul_cancel hdvd
    have h3 : (a / P.LENGTH + 1) * P.LENGTH ≤ USIZE / P.LENGTH * P.LENGTH :=
      Nat.mul_le_mul_right _ (by omega)
    rw [Nat.add_mul] at h3
    omega
  rw [detachedToAbstract_eq P hSN hN hd, abstractToDetached_eq P hSN hN ha]
  set D := a / P.LENGTH * P.LENGTH + abstractToConcrete P a with hD
  have hDdiv : D / P.LENGTH = a / P.LENGTH := by
    rw [hD, Nat.add_comm, Nat.add_mul_div_right _ _ hNpos, Nat.div_eq_of_lt hc]
    omega
  have hDmod : D % P.LENGTH = abstractToConcrete P a := by
    rw [hD, Nat.add_comm, Nat.add_mul_mod_self_right]
    exact Nat.mod_eq_of_lt hc
  have hcexp : abstractToConcrete P a = a % P.BLOCKS * P.S + a / P.BLOCKS % P.S :=
    abstractToConcrete_eq P a
  have hDmodS : D % P.S = a / P.BLOCKS % P.S := by
    have hSdvdN : P.S ∣ P.LENGTH := Nat.pow_dvd_pow 2 hSN
    have h1 : D % P.S = D % P.LENGTH % P.S := (Nat.mod_mod_of_dvd D hSdvdN).symm
    rw [h1, hDmod, hcexp, digit_mod P _ _ (Nat.mod_lt _ hS)]
  have hDdivS : D / P.S % P.BLOCKS = a % P.BLOCKS := by
    have h1 : D / P.S = a / P.LENGTH * P.BLOCKS + (a % P.BLOCKS * P.S + a / P.BLOCKS % P.S) / P.S := by
      rw [hD, hcexp]
      have : a / P.LENGTH * P.LENGTH = (a / P.LENGTH * P.BLOCKS) * P.S := by
        rw [Nat.mul_assoc, blocks_mul_s P hSN]
      rw [this, Nat.add_comm, Nat.add_mul_div_right _ _ hS, Nat.add_comm]
    rw [h1, digit_div P _ _ (Nat.mod_lt _ hS), Nat.add_comm,
      Nat.add_mul_mod_self_right]
    exact Nat.mod_eq_of_lt (Nat.mod_lt _ hB)
  rw [hDdiv, hDmodS, hDdivS]
  -- a = (a / N) * N + ((a / B) % S) * B + a % B
  have expand : a = a / P.LENGTH * P.LENGTH + (a / P.BLOCKS % P.S * P.BLOCKS + a % P.BLOCKS) := by
    conv_lhs => rw [← Nat.div_add_mod' a P.LENGTH]
    rw [mod_length_expand P hSN]
  omega

/-- `detached_to_concrete ∘ abstract_to_detached = abstract_to_concrete`. -/
theorem detachedToConcrete_abstractToDetached (P : Params) (hSN : P.lgS ≤ P.lgN)
    (hN : P.lgN ≤ 64) {a : Nat} (ha : a < USIZE) :
    detachedToConcrete P (abstractToDetached P a) = abstractToConcrete P a := by
  rw [detachedToConcrete_eq, abstractToDetached_eq P hSN hN ha, Nat.add_comm,
    Nat.add_mul_mod_self_right]
  exact Nat.mod_eq_of_lt (abstractToConcrete_lt P hSN a)

/-- `abstract_to_concrete ∘ detached_to_abstract = detached_to_concrete`:
the rebuilt abstract index addresses the key's own slot. -/
theorem abstractToConcrete_detachedToAbstract (P : Params) (hSN : P.lgS ≤ P.lgN)
    (hN : P.lgN ≤ 64) {d : Nat} (hd : d < USIZE) :
    abstractToConcrete P (detachedToAbstract P d) = detachedToConcrete P d := by
  have hB := blocks_pos P
  have hS := s_pos P
  rw [detachedToAbstract_eq P hSN hN hd, detachedToConcrete_eq]
  set A := d / P.LENGTH * P.LENGTH + d % P.S * P.BLOCKS + d / P.S % P.BLOCKS with hA
  have hmodB : A % P.BLOCKS = d / P.S % P.BLOCKS := by
    have h1 : d / P.LENGTH * P.LENGTH = (d / P.LENGTH * P.S) * P.BLOCKS := by
      rw [Nat.mul_assoc, s_mul_blocks P hSN]
    rw [hA, h1, Nat.add_assoc, Nat.add_comm ((d / P.LENGTH * P.S) * P.BLOCKS),
      Nat.add_mul_mod_self_right, Nat.add_comm, Nat.add_mul_mod_self_right]
    exact Nat.mod_eq_of_lt (Nat.mod_lt _ hB)
  have hdivB : A / P.BLOCKS % P.S = d % P.S := by
    have h1 : d / P.LENGTH * P.LENGTH = (d / P.LENGTH * P.S) * P.BLOCKS := by
      rw [Nat.mul_assoc, s_mul_blocks P hSN]
    have h2 : A = ((d / P.LENGTH * P.S) + d % P.S) * P.BLOCKS + d / P.S % P.BLOCKS := by
      rw [hA, h1, Nat.add_mul]
    rw [h2, Nat.add_comm, Nat.add_mul_div_right _ _ hB,
      Nat.div_eq_of_lt (Nat.mod_lt _ hB)]
    simp only [Nat.zero_add]
    exact digit_mod P _ _ (Nat.mod_lt _ hS)
  rw [abstractToConcrete_eq, hmodB, hdivB]
  -- d % N = (d / S % B) * S + d % S
  have hswap : d % P.LENGTH = d / P.S % P.BLOCKS * P.S + d % P.S := by
    have e1 : P.S * (d % P.LENGTH / P.S) + d % P.LENGTH % P.S
        = d % P.LENGTH := Nat.div_add_mod _ _
    have e2 : d % P.LENGTH / P.S = d / P.S % P.BLOCKS := by
      rw [← s_mul_blocks P hSN, Nat.mod_mul_right_div_self]
    have e3 : d % P.LENGTH % P.S = d % P.S :=
      Nat.mod_mod_of_dvd d (Nat.pow_dvd_pow 2 hSN)
    rw [e2, e3] at e1
    rw [← e1, Nat.mul_comm]
  omega

-- -----------------------------------------------------------------------------
-- Generic digit lemmas and the seed values of the metadata array
-- -----------------------------------------------------------------------------

theorem digit_div_gen (m q r : Nat) (hm : 0 < m) (hr : r < m) :
    (q * m + r) / m = q := by
  rw [Nat.mul_comm, Nat.mul_add_div hm, Nat.div_eq_of_lt hr]
  omega

theorem digit_mod_gen (m q r : Nat) (hr : r < m) :
    (q * m + r) % m = r := by
  rw [Nat.mul_comm, Nat.mul_add_mod]
  exact Nat.mod_eq_of_lt hr

/-- The seed stored by `ReadOnly::new_slot_array` (table.rs) at physical
offset `offset`: `(offset % CACHE_LINE_SLOTS) * BLOCKS + offset / CACHE_LINE_SLOTS`. -/
def initSlotValue (P : Params) (offset : Nat) : Nat :=
  offset % P.S * P.BLOCKS + offset / P.S

theorem initSlotValue_lt (P : Params) (hSN : P.lgS ≤ P.lgN) {c : Nat}
    (hc : c < P.LENGTH) : initSlotValue P c < P.LENGTH := by
  have hB := blocks_pos P
  have hS := s_pos P
  have h1 : c % P.S ≤ P.S - 1 := by
    have := Nat.mod_lt c hS
    omega
  have h2 : c / P.S < P.BLOCKS := by
    rw [Nat.div_lt_iff_lt_mul hS, blocks_mul_s P hSN]
    exact hc
  calc initSlotValue P c ≤ (P.S - 1) * P.BLOCKS + (P.BLOCKS - 1) := by
        unfold initSlotValue
        exact Nat.add_le_add (Nat.mul_le_mul_right _ h1) (by omega)
    _ < P.S * P.BLOCKS := by
        rw [Nat.sub_one_mul]
        have : P.BLOCKS ≤ P.S * P.BLOCKS := Nat.le_mul_of_pos_left _ hS
        omega
    _ = P.LENGTH := s_mul_blocks P hSN

/-- The concrete slot of the seed value at offset `c` is `c` itself: the
metadata array seeds each physical slot with its own generation-zero name. -/
theorem abstractToConcrete_initSlotValue (P : Params) (hSN : P.lgS ≤ P.lgN)
    {c : Nat} (hc : c < P.LENGTH) :
    abstractToConcrete P (initSlotValue P c) = c := by
  have hB := blocks_pos P
  have hS := s_pos P
  have h2 : c / P.S < P.BLOCKS := by
    rw [Nat.div_lt_iff_lt_mul hS, blocks_mul_s P hSN]
    exact hc
  rw [abstractToConcrete_eq]
  unfold initSlotValue
  rw [digit_mod_gen P.BLOCKS _ _ h2, digit_div_gen P.BLOCKS _ _ hB h2]
  rw [Nat.mod_eq_of_lt (Nat.mod_lt c hS)]
  conv_rhs => rw [← Nat.div_add_mod c P.S]
  rw [Nat.mul_comm]

/-- The cache-line block number of `abstract_to_concrete a`. -/
theorem block_of_abstractToConcrete (P : Params) (a : Nat) :
    abstractToConcrete P a / P.S = a % P.BLOCKS := by
  rw [abstractToConcrete_eq]
  exact digit_div P _ _ (Nat.mod_lt _ (s_pos P))

-- -----------------------------------------------------------------------------
-- Claim C4: abstract → detached → abstract round-trip
-- -----------------------------------------------------------------------------

/-- C4.  For every supported power-of-two capacity N, every generation g and
every index i < N, `abstract_of (detached_of (Abstract (g·N + i))) =
Abstract (g·N + i)` (generation bits preserved), for values representable in
a 64-bit word. -/
theorem c4_abstract_detached_roundtrip (P : Params) (hOk : P.Ok) (g i : Nat)
    (_hi : i < P.LENGTH) (hrep : g * P.LENGTH + i < USIZE) :
    detachedToAbstract P (abstractToDetached P (g * P.LENGTH + i))
      = g * P.LENGTH + i :=
  roundtrip_abstract_detached P hOk.1
    (by obtain ⟨h1, h2, h3⟩ := hOk; omega) hrep

theorem c4_witness :
    5 < P16.LENGTH ∧ 3 * P16.LENGTH + 5 < USIZE ∧
    detachedToAbstract P16 (abstractToDetached P16 (3 * P16.LENGTH + 5))
      = 3 * P16.LENGTH + 5 :=
  ⟨by decide, by decide,
    c4_abstract_detached_roundtrip P16 (by decide) 3 5 (by decide) (by decide)⟩

-- -----------------------------------------------------------------------------
-- Claim C6: abstract → concrete is a bijection on [0, N)
-- -----------------------------------------------------------------------------

/-- C6.  For every supported capacity, `i ↦ concrete_of (Abstract i)` maps
[0, N) into [0, N), is injective there, and hits every physical slot. -/
theorem c6_concrete_bijective (P : Params) (hOk : P.Ok) :
    (∀ a < P.LENGTH, abstractToConcrete P a < P.LENGTH) ∧
    (∀ a < P.LENGTH, ∀ b < P.LENGTH,
      abstractToConcrete P a = abstractToConcrete P b → a = b) ∧
    (∀ c < P.LENGTH, ∃ a, a < P.LENGTH ∧ abstractToConcrete P a = c) := by
  refine ⟨fun a _ => abstractToConcrete_lt P hOk.1 a, fun a ha b hb h => ?_, fun c hc => ?_⟩
  · have := abstractToConcrete_inj_mod P hOk.1 h
    rwa [Nat.mod_eq_of_lt ha, Nat.mod_eq_of_lt hb] at this
  · exact ⟨initSlotValue P c, initSlotValue_lt P hOk.1 hc,
      abstractToConcrete_initSlotValue P hOk.1 hc⟩

theorem c6_witness :
    7 < P16.LENGTH ∧ ∃ a, a < P16.LENGTH ∧ abstractToConcrete P16 a = 7 :=
  ⟨by decide, (c6_concrete_bijective P16 (by decide)).2.2 7 (by decide)⟩

-- -----------------------------------------------------------------------------
-- Claim C7: the bit permutation abstract → concrete
-- -----------------------------------------------------------------------------

/-- The permutation formula asserted by the specification's words:
"block = A & mask_S placed at position lg S, index = (A >> lg S) & mask_B
placed at position 0, yielding C = block·S + index".  Written here only to be
compared against `abstract_to_concrete` from the source. -/
def concreteSpecFormula (P : Params) (a : Nat) : Nat :=
  (a &&& P.ID_MASK_INDEX) * P.S + ((a >>> P.ID_SHIFT_BLOCK) &&& P.ID_MASK_BLOCK)

/-- C7 counterexample.  At capacity 16 with 16 slots per cache line the source
conversion sends Abstract 1 to Concrete 1, while the claimed formula yields
16 — the claim swaps the roles of `mask_S` and `mask_B`. -/
theorem c7_counterexample :
    abstractToConcrete P16 1 = 1 ∧ concreteSpecFormula P16 1 = 16 ∧
    abstractToConcrete P16 1 ≠ concreteSpecFormula P16 1 := by decide

/-- C7 as amended.  The conversion places the low `lg B` bits of A
(`block = A & mask_B`) at position `lg S`, and the next `lg S` bits
(`index = (A >> lg B) & mask_S`) at position 0: `C = block·S + index`,
equivalently `C = (A % B)·S + (A / B) % S`, and C < N. -/
theorem c7_concrete_permutation (P : Params) (hOk : P.Ok) (a : Nat) :
    abstractToConcrete P a
      = (a &&& P.ID_MASK_BLOCK) * P.S +
        ((a >>> P.ID_SHIFT_INDEX) &&& P.ID_MASK_INDEX) ∧
    abstractToConcrete P a = a % P.BLOCKS * P.S + a / P.BLOCKS % P.S ∧
    abstractToConcrete P a < P.LENGTH := by
  refine ⟨?_, abstractToConcrete_eq P a, abstractToConcrete_lt P hOk.1 a⟩
  simp only [abstractToConcrete, Params.ID_SHIFT_BLOCK, Nat.shiftLeft_eq, Params.S]

theorem c7_witness :
    abstractToConcrete P16 3
      = (3 &&& P16.ID_MASK_BLOCK) * P16.S +
        ((3 >>> P16.ID_SHIFT_INDEX) &&& P16.ID_MASK_INDEX) ∧
    abstractToConcrete P16 3 = 3 % P16.BLOCKS * P16.S + 3 / P16.BLOCKS % P16.S ∧
    abstractToConcrete P16 3 < P16.LENGTH :=
  c7_concrete_permutation P16 (by decide) 3

-- -----------------------------------------------------------------------------
-- Claim C8: cache-line striping of the first S abstract values
-- -----------------------------------------------------------------------------

/-- C8 counterexample.  At capacity 16 with S = 16 slots per cache line there
is a single block, so the first S Abstract values all map to block 0: one
distinct block number, not S = 16. -/
theorem c8_counterexample :
    P16.S = 16 ∧
    ((Finset.range P16.S).image fun a => abstractToConcrete P16 a / P16.S).card = 1 ∧
    ((Finset.range P16.S).image fun a => abstractToConcrete P16 a / P16.S).card
      ≠ P16.S := by decide

/-- C8 as amended.  For every supported capacity the first S Abstract values
map under `concrete_of` to exactly `min S B` distinct cache-line block
numbers (all B blocks whenever B ≤ S; the source's own test asserts B
distinct blocks and skips B = 1). -/
theorem c8_block_coverage (P : Params) (_hOk : P.Ok) :
    ((Finset.range P.S).image fun a => abstractToConcrete P a / P.S)
      = Finset.range (min P.S P.BLOCKS) ∧
    ((Finset.range P.S).image fun a => abstractToConcrete P a / P.S).card
      = min P.S P.BLOCKS := by
  have himg : ((Finset.range P.S).image fun a => abstractToConcrete P a / P.S)
      = Finset.range (min P.S P.BLOCKS) := by
    ext x
    simp only [Finset.mem_image, Finset.mem_range, block_of_abstractToConcrete]
    constructor
    · rintro ⟨a, ha, rfl⟩
      have h1 : a % P.BLOCKS < P.BLOCKS := Nat.mod_lt _ (blocks_pos P)
      have h2 : a % P.BLOCKS ≤ a := Nat.mod_le _ _
      omega
    · intro hx
      exact ⟨x, by omega, Nat.mod_eq_of_lt (by omega)⟩
  exact ⟨himg, by rw [himg, Finset.card_range]⟩

theorem c8_witness :
    ((Finset.range P32.S).image fun a => abstractToConcrete P32 a / P32.S)
      = Finset.range (min P32.S P32.BLOCKS) ∧
    ((Finset.range P32.S).image fun a => abstractToConcrete P32 a / P32.S).card
      = min P32.S P32.BLOCKS :=
  c8_block_coverage P32 (by decide)

-- -----------------------------------------------------------------------------
-- Table state (table.rs, sequential semantics)
-- -----------------------------------------------------------------------------

/-- Pointwise update of an array modelled as a function. -/
def upd {α : Type} (f : Nat → α) (i : Nat) (v : α) : Nat → α :=
  fun j => if j = i then v else f j

/-- The state of a `Table<T, P>`: the three 32-bit counters of `Volatile`,
the data array (`None` models a null pointer) and the metadata word array. -/
structure TState (α : Type) where
  entries : Nat
  nextId : Nat
  freeId : Nat
  data : Nat → Option α
  slot : Nat → Nat

/-- `Table::new`: counters zero (`entries` starts at 1 at `Capacity::MAX`,
i.e. `N = 2^27`), null data pointers, and the metadata array seeded by
`ReadOnly::new_slot_array`. -/
def freshTable (P : Params) {α : Type} : TState α where
  entries := if P.lgN = 27 then 1 else 0
  nextId := 0
  freeId := 0
  data := fun _ => none
  slot := fun offset => initSlotValue P offset

/-- `Table::cap`. -/
def capTab (P : Params) : Nat :=
  if P.lgN = 27 then P.LENGTH - 1 else P.LENGTH

/-- `Table::len`: load `entries`; at `Capacity::MAX` wrapping-subtract one
from both the counter and the bound; clamp to the bound. -/
def lenTab (P : Params) {α : Type} (s : TState α) : Nat :=
  let len0 := s.entries
  let max0 := P.LENGTH
  let len1 := if P.lgN = 27 then (len0 + (U32 - 1)) % U32 else len0
  let max1 := if P.lgN = 27 then max0 - 1 else max0
  if len1 > max1 then max1 else len1

/-- `Table::reserve_slot`: fetch-add `entries`; if the previous value was
below capacity a permit is returned, otherwise the increment is undone by the
compare-exchange loop.  Sequentially the first compare-exchange succeeds, so
the failing branch leaves the state exactly unchanged. -/
def reserveSlot (P : Params) {α : Type} (s : TState α) : Option (TState α) :=
  if s.entries < P.LENGTH then some { s with entries := (s.entries + 1) % U32 }
  else none

/-- `Table::acquire_slot`: fetch-add `next_id`, swap RESERVED into the
metadata word at the cursor's concrete offset, retry while the previous value
was RESERVED.  The source loop carries no fuel; the fuel argument bounds the
number of iterations of this embedding, and the well-formedness invariant
shows one iteration suffices sequentially. -/
def acquireSlot (P : Params) {α : Type} : Nat → TState α → Option (Nat × TState α)
  | 0, _ => none
  | fuel + 1, s =>
    let a := s.nextId
    let s1 : TState α := { s with nextId := (a + 1) % U32 }
    let c := abstractToConcrete P a
    let r := s1.slot c
    let s2 : TState α := { s1 with slot := upd s1.slot c RESERVED }
    if r = RESERVED then acquireSlot P fuel s2 else some (r, s2)

/-- `Table::write`: reserve capacity, claim an abstract index, publish the
initialised value at its concrete offset, return its detached form.  The
outer `none` marks fuel exhaustion (unreachable sequentially). -/
def writeTab (P : Params) {α : Type} (fuel : Nat) (s : TState α)
    (init : Nat → α) : Option (Option Nat × TState α) :=
  match reserveSlot P s with
  | none => some (none, s)
  | some s1 =>
    match acquireSlot P fuel s1 with
    | none => none
    | some (a, s2) =>
      let c := abstractToConcrete P a
      let d := abstractToDetached P a
      some (some d, { s2 with data := upd s2.data c (some (init d)) })

/-- `Table::insert`: `write` with an initialiser that ignores the index. -/
def insertTab (P : Params) {α : Type} (fuel : Nat) (s : TState α) (v : α) :
    Option (Option Nat × TState α) :=
  writeTab P fuel s fun _ => v

/-- `Table::generate_next_slot`: advance the generation by N (wrapping),
skipping RESERVED. -/
def generateNextSlot (P : Params) (a : Nat) : Nat :=
  let d := (a + P.LENGTH) % USIZE
  if d = RESERVED then (d + P.LENGTH) % USIZE else d

/-- The compare-exchange loop of `Table::release_slot`: fetch-add `free_id`
and try to replace RESERVED by the next-generation value at the cursor's
concrete offset. -/
def releaseLoop (P : Params) {α : Type} : Nat → TState α → Nat → Option (TState α)
  | 0, _, _ => none
  | fuel + 1, s, v =>
    let f := s.freeId
    let s1 : TState α := { s with freeId := (f + 1) % U32 }
    let c := abstractToConcrete P f
    if s1.slot c = RESERVED then some { s1 with slot := upd s1.slot c v }
    else releaseLoop P fuel s1 v

/-- `Table::release_slot`: deposit the next generation of the freed abstract
index into the free list, then decrement `entries` (wrapping fetch-sub). -/
def releaseSlot (P : Params) {α : Type} (fuel : Nat) (s : TState α) (a : Nat) :
    Option (TState α) :=
  (releaseLoop P fuel s (generateNextSlot P a)).map fun s1 =>
    { s1 with entries := (s1.entries + (U32 - 1)) % U32 }

/-- `Table::remove`: swap null into the data slot addressed by the key; if a
value was evicted, return its identifier to the free list. -/
def removeTab (P : Params) {α : Type} (fuel : Nat) (s : TState α) (k : Nat) :
    Option (Bool × TState α) :=
  let c := detachedToConcrete P k
  match s.data c with
  | none => some (false, s)
  | some _ =>
    (releaseSlot P fuel { s with data := upd s.data c none }
      (detachedToAbstract P k)).map fun s2 => (true, s2)

/-- `Table::find`: load the data pointer at the key's concrete offset. -/
def findTab (P : Params) {α : Type} (s : TState α) (k : Nat) : Option α :=
  s.data (detachedToConcrete P k)

/-- `Table::read` (copying variant of `with`). -/
def readTab (P : Params) {α : Type} (s : TState α) (k : Nat) : Option α :=
  findTab P s k

/-- `Table::exists`. -/
def existsTab (P : Params) {α : Type} (s : TState α) (k : Nat) : Bool :=
  (findTab P s k).isSome

/-- `Table::with`. -/
def withTab (P : Params) {α β : Type} (s : TState α) (k : Nat) (f : α → β) :
    Option β :=
  (findTab P s k).map f

/-- `Table::weak_keys` / `WeakKeys::next`: walk the iterator index
`i = 0, …, cap-1`, load `data[concrete_of (Abstract i)]` and, when non-null,
yield `detached_of (Abstract i)`. -/
def weakKeysTab (P : Params) {α : Type} (s : TState α) : List Nat :=
  (List.range (capTab P)).filterMap fun i =>
    if (s.data (abstractToConcrete P i)).isSome then
      some (abstractToDetached P i)
    else none

/-- Run `n` inserts of the same value, keeping only the final state. -/
def insertStateN (P : Params) {α : Type} (fuel : Nat) (v : α) :
    Nat → TState α → Option (TState α)
  | 0, s => some s
  | n + 1, s => (insertTab P fuel s v).bind fun r => insertStateN P fuel v n r.2

/-- States reachable from a fresh table by `write`/`insert` and `remove`
(the read-only operations do not change the state). -/
inductive Reach (P : Params) {α : Type} : TState α → Prop where
  | fresh : Reach P (freshTable P)
  | write {s : TState α} {fuel : Nat} {init : Nat → α} {r : Option Nat}
      {s' : TState α} :
      Reach P s → writeTab P fuel s init = some (r, s') → Reach P s'
  | remove {s : TState α} {fuel k : Nat} {r : Bool} {s' : TState α} :
      Reach P s → k < USIZE → removeTab P fuel s k = some (r, s') → Reach P s'

-- -----------------------------------------------------------------------------
-- Small arithmetic facts about the machine-word moduli
-- -----------------------------------------------------------------------------

theorem u32_pos : 0 < U32 := by norm_num [U32]

theorem usize_pos : 0 < USIZE := by norm_num [USIZE]

theorem length_lt_u32 (P : Params) (h27 : P.lgN ≤ 27) : P.LENGTH < U32 := by
  have h1 : P.LENGTH ≤ 2 ^ 27 := by
    rw [Params.LENGTH]
    exact Nat.pow_le_pow_right (by norm_num) h27
  have h2 : (2:Nat) ^ 27 < U32 := by norm_num [U32]
  omega

theorem length_dvd_u32 (P : Params) (h27 : P.lgN ≤ 27) : P.LENGTH ∣ U32 :=
  Nat.pow_dvd_pow 2 (by omega)

theorem length_dvd_usize (P : Params) (h27 : P.lgN ≤ 27) : P.LENGTH ∣ USIZE :=
  Nat.pow_dvd_pow 2 (by omega)

theorem length_lt_reserved (P : Params) (h27 : P.lgN ≤ 27) :
    P.LENGTH < RESERVED := by
  have h1 : P.LENGTH ≤ 2 ^ 27 := by
    rw [Params.LENGTH]
    exact Nat.pow_le_pow_right (by norm_num) h27
  have h2 : (2:Nat) ^ 27 < RESERVED := by norm_num [RESERVED]
  omega

theorem reserved_lt_usize : RESERVED < USIZE := by norm_num [RESERVED, USIZE]

/-- Wrapping decrement of a 32-bit counter that is known to be positive. -/
theorem u32_decr {e : Nat} (h1 : 1 ≤ e) (h2 : e < U32) :
    (e + (U32 - 1)) % U32 = e - 1 := by
  have hU : 0 < U32 := u32_pos
  have h3 : e + (U32 - 1) = (e - 1) + 1 * U32 := by omega
  rw [h3, Nat.add_mul_mod_self_right]
  exact Nat.mod_eq_of_lt (by omega)

theorem abstractToConcrete_mod_u32 (P : Params) (hSN : P.lgS ≤ P.lgN)
    (h27 : P.lgN ≤ 27) (x : Nat) :
    abstractToConcrete P (x % U32) = abstractToConcrete P x := by
  apply abstractToConcrete_congr P hSN
  exact Nat.mod_mod_of_dvd x (length_dvd_u32 P h27)

/-- Two window offsets below N addressing the same concrete slot are equal. -/
theorem a2c_window_inj (P : Params) (hSN : P.lgS ≤ P.lgN) (f : Nat) {j k : Nat}
    (hj : j < P.LENGTH) (hk : k < P.LENGTH)
    (h : abstractToConcrete P (f + j) = abstractToConcrete P (f + k)) : j = k := by
  have h2 := abstractToConcrete_inj_mod P hSN h
  have h3 : Nat.ModEq P.LENGTH (f + j) (f + k) := h2
  have h4 : Nat.ModEq P.LENGTH j k := Nat.ModEq.add_left_cancel' f h3
  have h5 : j % P.LENGTH = k % P.LENGTH := h4
  rwa [Nat.mod_eq_of_lt hj, Nat.mod_eq_of_lt hk] at h5

theorem generateNextSlot_def (P : Params) (a : Nat) :
    generateNextSlot P a
      = if (a + P.LENGTH) % USIZE = RESERVED then
          ((a + P.LENGTH) % USIZE + P.LENGTH) % USIZE
        else (a + P.LENGTH) % USIZE := rfl

theorem generateNextSlot_lt (P : Params) (a : Nat) :
    generateNextSlot P a < USIZE := by
  rw [generateNextSlot_def]
  split
  · exact Nat.mod_lt _ usize_pos
  · exact Nat.mod_lt _ usize_pos

theorem generateNextSlot_ne_reserved (P : Params) (h27 : P.lgN ≤ 27) (a : Nat) :
    generateNextSlot P a ≠ RESERVED := by
  have hNpos := length_pos P
  have hNR := length_lt_reserved P h27
  have hRU := reserved_lt_usize
  rw [generateNextSlot_def]
  split
  · rename_i h
    rw [h]
    have h3 : RESERVED + P.LENGTH = (P.LENGTH - 1) + 1 * USIZE := by
      have : RESERVED + 1 = USIZE := by norm_num [RESERVED, USIZE]
      omega
    rw [h3, Nat.add_mul_mod_self_right, Nat.mod_eq_of_lt (by omega)]
    omega
  · rename_i h
    exact h

theorem generateNextSlot_mod_length (P : Params) (h27 : P.lgN ≤ 27) (a : Nat) :
    generateNextSlot P a % P.LENGTH = a % P.LENGTH := by
  have hdvd := length_dvd_usize P h27
  rw [generateNextSlot_def]
  split
  · rw [Nat.mod_mod_of_dvd _ hdvd, Nat.add_mod, Nat.mod_mod_of_dvd _ hdvd,
      ← Nat.add_mod, Nat.add_mod_right, Nat.add_mod_right]
  · rw [Nat.mod_mod_of_dvd _ hdvd, Nat.add_mod_right]

theorem abstractToConcrete_generateNextSlot (P : Params) (hSN : P.lgS ≤ P.lgN)
    (h27 : P.lgN ≤ 27) (a : Nat) :
    abstractToConcrete P (generateNextSlot P a) = abstractToConcrete P a := by
  apply abstractToConcrete_congr P hSN
  exact generateNextSlot_mod_length P h27 a

-- -----------------------------------------------------------------------------
-- The sequential well-formedness invariant
-- -----------------------------------------------------------------------------

/-- Initial value of the `entries` counter (1 at `Capacity::MAX`, else 0). -/
def tableBase (P : Params) : Nat := if P.lgN = 27 then 1 else 0

/-- The length of the RESERVED window of the free-list ring: the number of
identifiers currently claimed (occupied slots, sequentially). -/
def dWin (P : Params) {α : Type} (s : TState α) : Nat := s.entries - tableBase P

/-- The set of occupied physical slots. -/
def occupied (P : Params) {α : Type} (s : TState α) : Finset Nat :=
  (Finset.range P.LENGTH).filter fun c => (s.data c).isSome

/-- The sequential invariant of a table state: the counters are consistent,
the RESERVED metadata cells are exactly the window
`concrete (free_id + j), j < dWin` of the free-list ring, and the concrete
slots named by the non-RESERVED metadata values are exactly the null data
slots, each named once. -/
structure WF (P : Params) {α : Type} (s : TState α) : Prop where
  entries_le : s.entries ≤ P.LENGTH
  base_le : tableBase P ≤ s.entries
  next_lt : s.nextId < U32
  free_lt : s.freeId < U32
  next_eq : s.nextId = (s.freeId + dWin P s) % U32
  data_oob : ∀ c, P.LENGTH ≤ c → s.data c = none
  slot_lt : ∀ p, p < P.LENGTH → s.slot p < USIZE
  res_iff : ∀ c, c < P.LENGTH →
    (s.slot c = RESERVED ↔
      ∃ j, j < dWin P s ∧ c = abstractToConcrete P (s.freeId + j))
  free_data : ∀ p, p < P.LENGTH → s.slot p ≠ RESERVED →
    s.data (abstractToConcrete P (s.slot p)) = none
  free_inj : ∀ p, p < P.LENGTH → ∀ q, q < P.LENGTH → s.slot p ≠ RESERVED →
    s.slot q ≠ RESERVED →
    abstractToConcrete P (s.slot p) = abstractToConcrete P (s.slot q) → p = q
  free_surj : ∀ c, c < P.LENGTH → s.data c = none →
    ∃ p, p < P.LENGTH ∧ s.slot p ≠ RESERVED ∧ abstractToConcrete P (s.slot p) = c
  occ_card : (occupied P s).card = dWin P s

theorem WF_fresh (P : Params) (hOk : P.Ok) {α : Type} :
    WF P (freshTable P (α := α)) := by
  obtain ⟨hSN, hNlo, hNhi⟩ := hOk
  have hNpos := length_pos P
  have hbase : tableBase P ≤ 1 := by
    unfold tableBase
    split <;> omega
  have hfreshe : (freshTable P (α := α)).entries = tableBase P := by
    simp [freshTable, tableBase]
  have hd0 : dWin P (freshTable P (α := α)) = 0 := by
    unfold dWin
    omega
  refine ⟨?_, ?_, ?_, ?_, ?_, ?_, ?_, ?_, ?_, ?_, ?_, ?_⟩
  · rw [hfreshe]
    omega
  · omega
  · exact u32_pos
  · exact u32_pos
  · rw [hd0]
    simp [freshTable]
  · intro c _
    rfl
  · intro p hp
    have h1 := initSlotValue_lt P hSN hp
    have h2 : P.LENGTH < USIZE := lt_trans (length_lt_reserved P hNhi) reserved_lt_usize
    simpa [freshTable] using lt_trans h1 h2
  · intro c hc
    rw [hd0]
    constructor
    · intro h
      exfalso
      have h1 := initSlotValue_lt P hSN hc
      have h2 := length_lt_reserved P hNhi
      simp only [freshTable] at h
      omega
    · rintro ⟨j, hj, -⟩
      omega
  · intro p _ _
    rfl
  · intro p hp q hq _ _ h
    simp only [freshTable] at h
    rwa [abstractToConcrete_initSlotValue P hSN hp,
      abstractToConcrete_initSlotValue P hSN hq] at h
  · intro c hc _
    refine ⟨c, hc, ?_, ?_⟩
    · have h1 := initSlotValue_lt P hSN hc
      have h2 := length_lt_reserved P hNhi
      simp only [freshTable]
      omega
    · simp only [freshTable]
      exact abstractToConcrete_initSlotValue P hSN hc
  · rw [hd0]
    simp [occupied, freshTable]

-- -----------------------------------------------------------------------------
-- Sequential behaviour of the allocation path
-- -----------------------------------------------------------------------------

theorem reserveSlot_pos (P : Params) {α : Type} {s : TState α}
    (h : s.entries < P.LENGTH) :
    reserveSlot P s = some { s with entries := (s.entries + 1) % U32 } := by
  unfold reserveSlot
  rw [if_pos h]

theorem reserveSlot_neg (P : Params) {α : Type} {s : TState α}
    (h : ¬ s.entries < P.LENGTH) : reserveSlot P s = none := by
  unfold reserveSlot
  rw [if_neg h]

/-- A full table fails `write` and is left exactly unchanged (the CAS loop of
`reserve_slot` restores `entries`). -/
theorem writeTab_full (P : Params) {α : Type} {s : TState α} (init : Nat → α)
    (fuel : Nat) (h : ¬ s.entries < P.LENGTH) :
    writeTab P fuel s init = some (none, s) := by
  unfold writeTab
  rw [reserveSlot_neg P h]

/-- One step of `acquire_slot` when the cursor's metadata cell is not
RESERVED: the stored abstract index is claimed. -/
theorem acquireSlot_step (P : Params) {α : Type} (fuel : Nat) (s : TState α)
    (hne : s.slot (abstractToConcrete P s.nextId) ≠ RESERVED) :
    acquireSlot P (fuel + 1) s
      = some (s.slot (abstractToConcrete P s.nextId),
          { s with nextId := (s.nextId + 1) % U32,
                   slot := upd s.slot (abstractToConcrete P s.nextId) RESERVED }) := by
  simp only [acquireSlot]
  simp [hne]

/-- Sequentially, the metadata cell at the allocation cursor is never
RESERVED while the table has spare room: the cursor sits just past the
RESERVED window. -/
theorem cursor_not_reserved (P : Params) (hOk : P.Ok) {α : Type} {s : TState α}
    (hWF : WF P s) (hroom : s.entries < P.LENGTH) :
    s.slot (abstractToConcrete P s.nextId) ≠ RESERVED := by
  obtain ⟨hSN, hNlo, hNhi⟩ := hOk
  intro hres
  have hc : abstractToConcrete P s.nextId < P.LENGTH :=
    abstractToConcrete_lt P hSN _
  have hdlt : dWin P s < P.LENGTH := by
    have h1 := hWF.entries_le
    have h2 := hWF.base_le
    unfold dWin
    omega
  obtain ⟨j, hj, hcj⟩ := (hWF.res_iff _ hc).mp hres
  have h1 : abstractToConcrete P s.nextId
      = abstractToConcrete P (s.freeId + dWin P s) := by
    rw [hWF.next_eq]
    exact abstractToConcrete_mod_u32 P hSN hNhi _
  rw [h1] at hcj
  have h2 := a2c_window_inj P hSN s.freeId hdlt (lt_trans hj hdlt) hcj
  omega

/-- The head of the RESERVED window (used by `release_slot`'s first
compare-exchange). -/
theorem head_reserved (P : Params) (hOk : P.Ok) {α : Type} {s : TState α}
    (hWF : WF P s) (hd : 0 < dWin P s) :
    s.slot (abstractToConcrete P s.freeId) = RESERVED := by
  obtain ⟨hSN, hNlo, hNhi⟩ := hOk
  have hc : abstractToConcrete P s.freeId < P.LENGTH :=
    abstractToConcrete_lt P hSN _
  exact (hWF.res_iff _ hc).mpr ⟨0, hd, by rw [Nat.add_zero]⟩

theorem dWin_pos_of_occupied (P : Params) {α : Type} {s : TState α}
    (hWF : WF P s) {c : Nat} (hcN : c < P.LENGTH)
    (hocc : (s.data c).isSome) : 0 < dWin P s := by
  have hmem : c ∈ occupied P s := by
    simp only [occupied, Finset.mem_filter, Finset.mem_range]
    exact ⟨hcN, hocc⟩
  have h := Finset.card_pos.mpr ⟨c, hmem⟩
  rwa [hWF.occ_card] at h

/-- The successful path of `write`: reserve, claim the value stored at the
cursor's cell, publish the initialised element at its concrete offset. -/
theorem writeTab_success (P : Params) (hOk : P.Ok) {α : Type} {s : TState α}
    (hWF : WF P s) (hroom : s.entries < P.LENGTH) (init : Nat → α) (fuel : Nat) :
    writeTab P (fuel + 1) s init
      = some (some (abstractToDetached P (s.slot (abstractToConcrete P s.nextId))),
          { entries := (s.entries + 1) % U32
            nextId := (s.nextId + 1) % U32
            freeId := s.freeId
            data := upd s.data
              (abstractToConcrete P (s.slot (abstractToConcrete P s.nextId)))
              (some (init (abstractToDetached P
                (s.slot (abstractToConcrete P s.nextId)))))
            slot := upd s.slot (abstractToConcrete P s.nextId) RESERVED }) := by
  have hne := cursor_not_reserved P hOk hWF hroom
  have hpos : writeTab P (fuel + 1) s init
      = match acquireSlot P (fuel + 1) { s with entries := (s.entries + 1) % U32 } with
        | none => none
        | some (a, s2) =>
          some (some (abstractToDetached P a),
            { s2 with data := (upd s2.data (abstractToConcrete P a)
                (some (init (abstractToDetached P a)))) }) := by
    unfold writeTab
    rw [reserveSlot_pos P hroom]
  rw [hpos, acquireSlot_step P fuel _ (by simpa using hne)]

/-- The invariant is preserved by a successful `write`: the claimed cell
becomes RESERVED (extending the window at the cursor end), the claimed
identifier's slot becomes occupied. -/
theorem WF_insert_state (P : Params) (hOk : P.Ok) {α : Type} {s t : TState α}
    (hWF : WF P s) (hroom : s.entries < P.LENGTH) (v : α)
    (ht1 : t.entries = (s.entries + 1) % U32)
    (ht2 : t.nextId = (s.nextId + 1) % U32)
    (ht3 : t.freeId = s.freeId)
    (ht4 : t.data = upd s.data
      (abstractToConcrete P (s.slot (abstractToConcrete P s.nextId))) (some v))
    (ht5 : t.slot = upd s.slot (abstractToConcrete P s.nextId) RESERVED) :
    WF P t := by
  obtain ⟨hSN, hNlo, hNhi⟩ := hOk
  have hNpos := length_pos P
  have hNU := length_lt_u32 P hNhi
  have hrne : s.slot (abstractToConcrete P s.nextId) ≠ RESERVED :=
    cursor_not_reserved P ⟨hSN, hNlo, hNhi⟩ hWF hroom
  set pc := abstractToConcrete P s.nextId with hpc
  set r := s.slot pc with hrdef
  set cv := abstractToConcrete P r with hcv
  have hpcN : pc < P.LENGTH := by
    rw [hpc]
    exact abstractToConcrete_lt P hSN _
  have hcvN : cv < P.LENGTH := by
    rw [hcv]
    exact abstractToConcrete_lt P hSN _
  have hdata_cv : s.data cv = none := hWF.free_data pc hpcN hrne
  have hent : (s.entries + 1) % U32 = s.entries + 1 :=
    Nat.mod_eq_of_lt (by omega)
  have hbase := hWF.base_le
  have hdlt : dWin P s < P.LENGTH := by
    unfold dWin
    omega
  have htd : dWin P t = dWin P s + 1 := by
    unfold dWin
    rw [ht1, hent]
    omega
  have hpcd : pc = abstractToConcrete P (s.freeId + dWin P s) := by
    rw [hpc, hWF.next_eq]
    exact abstractToConcrete_mod_u32 P hSN hNhi _
  constructor
  · rw [ht1, hent]
    omega
  · rw [ht1, hent]
    omega
  · rw [ht2]
    exact Nat.mod_lt _ u32_pos
  · rw [ht3]
    exact hWF.free_lt
  · rw [ht2, ht3, htd, hWF.next_eq, Nat.mod_add_mod]
    congr 1
  · intro c hc
    rw [ht4]
    simp only [upd]
    rw [if_neg (by omega)]
    exact hWF.data_oob c hc
  · intro p hp
    rw [ht5]
    simp only [upd]
    split
    · exact reserved_lt_usize
    · exact hWF.slot_lt p hp
  · intro c hc
    rw [ht5, ht3, htd]
    simp only [upd]
    by_cases hcpc : c = pc
    · subst hcpc
      rw [if_pos rfl]
      constructor
      · intro _
        exact ⟨dWin P s, by omega, hpcd⟩
      · intro _
        rfl
    · rw [if_neg hcpc, hWF.res_iff c hc]
      constructor
      · rintro ⟨j, hj, hcj⟩
        exact ⟨j, by omega, hcj⟩
      · rintro ⟨j, hj, hcj⟩
        rcases Nat.lt_or_ge j (dWin P s) with h | h
        · exact ⟨j, h, hcj⟩
        · exfalso
          have hjd : j = dWin P s := by omega
          subst hjd
          exact hcpc (by rw [hcj, hpcd])
  · intro p hp hpne
    rw [ht5] at hpne
    rw [ht5, ht4]
    have hppc : p ≠ pc := by
      intro h
      subst h
      apply hpne
      simp [upd]
    simp only [upd] at hpne ⊢
    rw [if_neg hppc] at hpne ⊢
    have hne2 : abstractToConcrete P (s.slot p) ≠ cv := by
      intro heq
      exact hppc (hWF.free_inj p hp pc hpcN hpne hrne (by rw [heq, hcv]))
    rw [if_neg hne2]
    exact hWF.free_data p hp hpne
  · intro p hp q hq hpne hqne heq
    rw [ht5] at hpne hqne heq
    have hppc : p ≠ pc := by
      intro h
      subst h
      apply hpne
      simp [upd]
    have hqpc : q ≠ pc := by
      intro h
      subst h
      apply hqne
      simp [upd]
    simp only [upd] at hpne hqne heq
    rw [if_neg hppc] at hpne heq
    rw [if_neg hqpc] at hqne heq
    exact hWF.free_inj p hp q hq hpne hqne heq
  · intro c hc hcd
    rw [ht4] at hcd
    have hccv : c ≠ cv := by
      intro h
      subst h
      simp [upd] at hcd
    have hcd' : s.data c = none := by
      simp only [upd] at hcd
      rwa [if_neg hccv] at hcd
    obtain ⟨p, hpN, hpne, hpc2⟩ := hWF.free_surj c hc hcd'
    have hppc : p ≠ pc := by
      intro h
      subst h
      exact hccv (by rw [← hpc2, hcv])
    refine ⟨p, hpN, ?_, ?_⟩
    · rw [ht5]
      simp only [upd]
      rw [if_neg hppc]
      exact hpne
    · rw [ht5]
      simp only [upd]
      rw [if_neg hppc]
      exact hpc2
  · rw [htd, ← hWF.occ_card]
    have hocc : occupied P t = insert cv (occupied P s) := by
      unfold occupied
      rw [ht4]
      ext x
      simp only [Finset.mem_filter, Finset.mem_range, Finset.mem_insert, upd]
      by_cases hx : x = cv
      · subst hx
        simp [hcvN]
      · simp only [if_neg hx]
        constructor
        · rintro ⟨h1, h2⟩
          exact Or.inr ⟨h1, h2⟩
        · rintro (h | ⟨h1, h2⟩)
          · exact absurd h hx
          · exact ⟨h1, h2⟩
    rw [hocc, Finset.card_insert_of_not_mem]
    intro hmem
    simp only [occupied, Finset.mem_filter, Finset.mem_range] at hmem
    rw [hdata_cv] at hmem
    simp at hmem

theorem upd_self {α : Type} (f : Nat → α) (i : Nat) (v : α) : upd f i v i = v := by
  simp [upd]

theorem upd_other {α : Type} (f : Nat → α) {i j : Nat} (v : α) (h : j ≠ i) :
    upd f i v j = f j := by
  simp [upd, h]

theorem a2c_add_mod_u32 (P : Params) (hSN : P.lgS ≤ P.lgN) (h27 : P.lgN ≤ 27)
    (x j : Nat) :
    abstractToConcrete P (x % U32 + j) = abstractToConcrete P (x + j) := by
  apply abstractToConcrete_congr P hSN
  have h1 : Nat.ModEq P.LENGTH (x % U32) x :=
    Nat.mod_mod_of_dvd x (length_dvd_u32 P h27)
  exact h1.add_right j

-- -----------------------------------------------------------------------------
-- Sequential behaviour of the deallocation path
-- -----------------------------------------------------------------------------

theorem removeTab_def (P : Params) {α : Type} (fuel : Nat) (s : TState α)
    (k : Nat) :
    removeTab P fuel s k
      = match s.data (detachedToConcrete P k) with
        | none => some (false, s)
        | some _ =>
          (releaseSlot P fuel
            { s with data := upd s.data (detachedToConcrete P k) none }
            (detachedToAbstract P k)).map fun s2 => (true, s2) := rfl

/-- `remove` of an absent identifier returns false and leaves the state
exactly unchanged: no metadata cell, no counter is written. -/
theorem removeTab_absent (P : Params) {α : Type} {s : TState α} {k : Nat}
    (h : s.data (detachedToConcrete P k) = none) (fuel : Nat) :
    removeTab P fuel s k = some (false, s) := by
  rw [removeTab_def, h]

/-- One step of the `release_slot` compare-exchange loop when the cell at the
free cursor is RESERVED. -/
theorem releaseLoop_step (P : Params) {α : Type} (fuel : Nat) (s : TState α)
    (v : Nat) (hres : s.slot (abstractToConcrete P s.freeId) = RESERVED) :
    releaseLoop P (fuel + 1) s v
      = some { s with freeId := (s.freeId + 1) % U32,
                      slot := upd s.slot (abstractToConcrete P s.freeId) v } := by
  simp only [releaseLoop]
  simp [hres]

/-- The successful path of `remove`: evict the data pointer, deposit the
next-generation identifier at the head of the free window, decrement
`entries`. -/
theorem removeTab_success (P : Params) (hOk : P.Ok) {α : Type} {s : TState α}
    (hWF : WF P s) {k : Nat} {w : α}
    (hocc : s.data (detachedToConcrete P k) = some w) (fuel : Nat) :
    removeTab P (fuel + 1) s k
      = some (true,
          { entries := (s.entries + (U32 - 1)) % U32
            nextId := s.nextId
            freeId := (s.freeId + 1) % U32
            data := upd s.data (detachedToConcrete P k) none
            slot := (upd s.slot (abstractToConcrete P s.freeId)
              (generateNextSlot P (detachedToAbstract P k))) }) := by
  have hc0N : detachedToConcrete P k < P.LENGTH := detachedToConcrete_lt P k
  have hd : 0 < dWin P s :=
    dWin_pos_of_occupied P hWF hc0N (by rw [hocc]; rfl)
  have hres : s.slot (abstractToConcrete P s.freeId) = RESERVED :=
    head_reserved P hOk hWF hd
  rw [removeTab_def, hocc]
  unfold releaseSlot
  rw [releaseLoop_step P fuel _ _ (by simpa using hres)]
  simp

/-- The invariant is preserved by a successful `remove`: the evicted slot
becomes null, the window head leaves the RESERVED state carrying the
next-generation name of the evicted slot. -/
theorem WF_remove_state (P : Params) (hOk : P.Ok) {α : Type} {s t : TState α}
    (hWF : WF P s) {k : Nat} {w : α} (hk : k < USIZE)
    (hocc : s.data (detachedToConcrete P k) = some w)
    (ht1 : t.entries = (s.entries + (U32 - 1)) % U32)
    (ht2 : t.nextId = s.nextId)
    (ht3 : t.freeId = (s.freeId + 1) % U32)
    (ht4 : t.data = upd s.data (detachedToConcrete P k) none)
    (ht5 : t.slot = upd s.slot (abstractToConcrete P s.freeId)
      (generateNextSlot P (detachedToAbstract P k))) :
    WF P t := by
  obtain ⟨hSN, hNlo, hNhi⟩ := hOk
  have hNpos := length_pos P
  have hNU := length_lt_u32 P hNhi
  set c0 := detachedToConcrete P k with hc0
  set p1 := abstractToConcrete P s.freeId with hp1
  set v := generateNextSlot P (detachedToAbstract P k) with hv
  have hc0N : c0 < P.LENGTH := by
    rw [hc0]
    exact detachedToConcrete_lt P k
  have hp1N : p1 < P.LENGTH := by
    rw [hp1]
    exact abstractToConcrete_lt P hSN _
  have hdpos : 0 < dWin P s :=
    dWin_pos_of_occupied P hWF hc0N (by rw [hocc]; rfl)
  have hres1 : s.slot p1 = RESERVED :=
    head_reserved P ⟨hSN, hNlo, hNhi⟩ hWF hdpos
  have hvne : v ≠ RESERVED := by
    rw [hv]
    exact generateNextSlot_ne_reserved P hNhi _
  have hvlt : v < USIZE := by
    rw [hv]
    exact generateNextSlot_lt P _
  have hvc : abstractToConcrete P v = c0 := by
    rw [hv, abstractToConcrete_generateNextSlot P hSN hNhi,
      abstractToConcrete_detachedToAbstract P hSN (by omega) hk, hc0,
      detachedToConcrete_eq]
  have hbase := hWF.base_le
  have hentle := hWF.entries_le
  have hdw : dWin P s = s.entries - tableBase P := rfl
  have hent_ge : 1 ≤ s.entries := by omega
  have hent : (s.entries + (U32 - 1)) % U32 = s.entries - 1 :=
    u32_decr hent_ge (by omega)
  have hdle : dWin P s ≤ P.LENGTH := by omega
  have htd : dWin P t = dWin P s - 1 := by
    unfold dWin
    rw [ht1, hent]
    omega
  constructor
  · rw [ht1, hent]
    omega
  · rw [ht1, hent]
    omega
  · rw [ht2]
    exact hWF.next_lt
  · rw [ht3]
    exact Nat.mod_lt _ u32_pos
  · have he : s.freeId + 1 + (dWin P s - 1) = s.freeId + dWin P s := by omega
    rw [ht2, ht3, htd, hWF.next_eq, Nat.mod_add_mod, he]
  · intro c hc
    rw [ht4, upd_other _ _ (by omega)]
    exact hWF.data_oob c hc
  · intro p hp
    rw [ht5]
    by_cases hpp1 : p = p1
    · subst hpp1
      rw [upd_self]
      exact hvlt
    · rw [upd_other _ _ hpp1]
      exact hWF.slot_lt p hp
  · intro c hc
    rw [ht5, ht3, htd]
    by_cases hcp1 : c = p1
    · subst hcp1
      rw [upd_self]
      constructor
      · intro hveq
        exact absurd hveq hvne
      · rintro ⟨j, hj, hcj⟩
        exfalso
        rw [a2c_add_mod_u32 P hSN hNhi] at hcj
        have he : s.freeId + 1 + j = s.freeId + (j + 1) := by omega
        rw [he] at hcj
        have hp1' : p1 = abstractToConcrete P (s.freeId + 0) := by
          rw [Nat.add_zero, hp1]
        rw [hp1'] at hcj
        have := a2c_window_inj P hSN s.freeId (by omega) (by omega) hcj
        omega
    · rw [upd_other _ _ hcp1, hWF.res_iff c hc]
      constructor
      · rintro ⟨j, hj, hcj⟩
        have hj0 : j ≠ 0 := by
          intro h
          subst h
          rw [Nat.add_zero] at hcj
          exact hcp1 (by rw [hcj, hp1])
        refine ⟨j - 1, by omega, ?_⟩
        rw [a2c_add_mod_u32 P hSN hNhi]
        have he : s.freeId + 1 + (j - 1) = s.freeId + j := by omega
        rw [he]
        exact hcj
      · rintro ⟨j, hj, hcj⟩
        rw [a2c_add_mod_u32 P hSN hNhi] at hcj
        refine ⟨j + 1, by omega, ?_⟩
        have he : s.freeId + (j + 1) = s.freeId + 1 + j := by omega
        rw [he]
        exact hcj
  · intro p hp hpne
    rw [ht5] at hpne
    rw [ht5, ht4]
    by_cases hpp1 : p = p1
    · subst hpp1
      rw [upd_self, hvc]
      exact upd_self _ _ _
    · rw [upd_other _ _ hpp1] at hpne
      rw [upd_other _ _ hpp1]
      by_cases hcc : abstractToConcrete P (s.slot p) = c0
      · rw [hcc]
        exact upd_self _ _ _
      · rw [upd_other _ _ hcc]
        exact hWF.free_data p hp hpne
  · intro p hp q hq hpne hqne heq
    rw [ht5] at hpne hqne heq
    by_cases hpp1 : p = p1 <;> by_cases hqp1 : q = p1
    · rw [hpp1, hqp1]
    · exfalso
      subst hpp1
      rw [upd_self] at heq
      rw [upd_other _ _ hqp1] at heq hqne
      have h2 := hWF.free_data q hq hqne
      rw [← heq, hvc, hocc] at h2
      exact Option.noConfusion h2
    · exfalso
      subst hqp1
      rw [upd_self] at heq
      rw [upd_other _ _ hpp1] at heq hpne
      have h2 := hWF.free_data p hp hpne
      rw [heq, hvc, hocc] at h2
      exact Option.noConfusion h2
    · rw [upd_other _ _ hpp1] at hpne heq
      rw [upd_other _ _ hqp1] at hqne heq
      exact hWF.free_inj p hp q hq hpne hqne heq
  · intro c hc hcd
    rw [ht4] at hcd
    by_cases hcc0 : c = c0
    · subst hcc0
      refine ⟨p1, hp1N, ?_, ?_⟩
      · rw [ht5, upd_self]
        exact hvne
      · rw [ht5, upd_self]
        exact hvc
    · rw [upd_other _ _ hcc0] at hcd
      obtain ⟨p, hpN, hpne, hpcc⟩ := hWF.free_surj c hc hcd
      have hpp1 : p ≠ p1 := by
        intro h
        subst h
        rw [hres1] at hpne
        exact hpne rfl
      refine ⟨p, hpN, ?_, ?_⟩
      · rw [ht5, upd_other _ _ hpp1]
        exact hpne
      · rw [ht5, upd_other _ _ hpp1]
        exact hpcc
  · rw [htd, ← hWF.occ_card]
    have hmem : c0 ∈ occupied P s := by
      simp only [occupied, Finset.mem_filter, Finset.mem_range]
      exact ⟨hc0N, by rw [hocc]; rfl⟩
    have hocc2 : occupied P t = (occupied P s).erase c0 := by
      unfold occupied
      rw [ht4]
      ext x
      simp only [Finset.mem_filter, Finset.mem_range, Finset.mem_erase]
      by_cases hx : x = c0
      · subst hx
        simp [upd]
      · rw [upd_other _ _ hx]
        constructor
        · rintro ⟨h1, h2⟩
          exact ⟨hx, h1, h2⟩
        · rintro ⟨-, h1, h2⟩
          exact ⟨h1, h2⟩
    rw [hocc2, Finset.card_erase_of_mem hmem]

-- -----------------------------------------------------------------------------
-- Every reachable state is well formed
-- -----------------------------------------------------------------------------

theorem WF_of_reach (P : Params) (hOk : P.Ok) {α : Type} {s : TState α}
    (h : Reach P s) : WF P s := by
  induction h with
  | fresh => exact WF_fresh P hOk
  | @write s fuel init r s' hs heq ih =>
    by_cases hroom : s.entries < P.LENGTH
    · cases fuel with
      | zero =>
        exfalso
        unfold writeTab at heq
        rw [reserveSlot_pos P hroom] at heq
        simp [acquireSlot] at heq
      | succ m =>
        rw [writeTab_success P hOk ih hroom init m] at heq
        simp only [Option.some.injEq, Prod.mk.injEq] at heq
        obtain ⟨-, h2⟩ := heq
        exact WF_insert_state P hOk ih hroom
          (init (abstractToDetached P (s.slot (abstractToConcrete P s.nextId))))
          (by rw [← h2]) (by rw [← h2]) (by rw [← h2]) (by rw [← h2])
          (by rw [← h2])
    · rw [writeTab_full P init fuel hroom] at heq
      simp only [Option.some.injEq, Prod.mk.injEq] at heq
      obtain ⟨-, h2⟩ := heq
      rw [← h2]
      exact ih
  | @remove s fuel k r s' hs hk heq ih =>
    cases hocc : s.data (detachedToConcrete P k) with
    | none =>
      rw [removeTab_absent P hocc fuel] at heq
      simp only [Option.some.injEq, Prod.mk.injEq] at heq
      obtain ⟨-, h2⟩ := heq
      rw [← h2]
      exact ih
    | some w =>
      cases fuel with
      | zero =>
        exfalso
        rw [removeTab_def, hocc] at heq
        simp [releaseSlot, releaseLoop] at heq
      | succ m =>
        rw [removeTab_success P hOk ih hocc m] at heq
        simp only [Option.some.injEq, Prod.mk.injEq] at heq
        obtain ⟨-, h2⟩ := heq
        exact WF_remove_state P hOk ih hk hocc
          (by rw [← h2]) (by rw [← h2]) (by rw [← h2]) (by rw [← h2])
          (by rw [← h2])

-- -----------------------------------------------------------------------------
-- `len` and `cap` on well-formed states
-- -----------------------------------------------------------------------------

theorem capTab_eq (P : Params) : capTab P = P.LENGTH - tableBase P := by
  unfold capTab tableBase
  by_cases h : P.lgN = 27 <;> simp [h]

theorem capTab_le (P : Params) : capTab P ≤ P.LENGTH := by
  rw [capTab_eq]
  omega

theorem lenTab_eq (P : Params) (hOk : P.Ok) {α : Type} {s : TState α}
    (hWF : WF P s) : lenTab P s = s.entries - tableBase P := by
  obtain ⟨hSN, hNlo, hNhi⟩ := hOk
  have h1 := hWF.entries_le
  have h2 := hWF.base_le
  have hNU := length_lt_u32 P hNhi
  simp only [lenTab, tableBase] at *
  by_cases h : P.lgN = 27
  · simp only [h, if_true]
    simp only [h, if_true] at h2
    rw [u32_decr (by omega) (by omega)]
    rw [if_neg (by omega)]
  · simp only [h, if_false]
    simp only [h, if_false] at h2
    rw [if_neg (by omega)]
    omega

theorem lenTab_lt_cap_iff (P : Params) (hOk : P.Ok) {α : Type} {s : TState α}
    (hWF : WF P s) : lenTab P s < capTab P ↔ s.entries < P.LENGTH := by
  rw [lenTab_eq P hOk hWF, capTab_eq]
  have h1 := hWF.entries_le
  have h2 := hWF.base_le
  have h3 : tableBase P ≤ P.LENGTH := le_trans h2 h1
  omega

theorem lenTab_eq_cap_iff (P : Params) (hOk : P.Ok) {α : Type} {s : TState α}
    (hWF : WF P s) : lenTab P s = capTab P ↔ s.entries = P.LENGTH := by
  rw [lenTab_eq P hOk hWF, capTab_eq]
  have h1 := hWF.entries_le
  have h2 := hWF.base_le
  have h3 : tableBase P ≤ P.LENGTH := le_trans h2 h1
  omega

-- -----------------------------------------------------------------------------
-- Claim C2: insert/write return None exactly when the table is full
-- -----------------------------------------------------------------------------

/-- C2.  On every reachable state, `insert` (and `write`) returns None iff
`len() == capacity()`, and a failed insert leaves the state exactly as it
was (the entries counter is restored by the CAS-loop correction), so no
capacity is lost. -/
theorem c2_insert_none_iff_full (P : Params) (hOk : P.Ok) {α : Type}
    {s : TState α} (hreach : Reach P s) (init : Nat → α) (v : α) (fuel : Nat) :
    ((writeTab P (fuel + 1) s init).map Prod.fst = some none
      ↔ lenTab P s = capTab P) ∧
    ((insertTab P (fuel + 1) s v).map Prod.fst = some none
      ↔ lenTab P s = capTab P) ∧
    (lenTab P s = capTab P →
      writeTab P (fuel + 1) s init = some (none, s) ∧
      insertTab P (fuel + 1) s v = some (none, s)) := by
  have hWF := WF_of_reach P hOk hreach
  have hiff := lenTab_eq_cap_iff P hOk hWF
  have hle := hWF.entries_le
  by_cases hroom : s.entries < P.LENGTH
  · have hne : ¬ lenTab P s = capTab P := by
      rw [hiff]
      omega
    refine ⟨?_, ?_, fun h => absurd h hne⟩
    · rw [writeTab_success P hOk hWF hroom init fuel]
      simp [hne]
    · simp only [insertTab]
      rw [writeTab_success P hOk hWF hroom _ fuel]
      simp [hne]
  · have hcap : lenTab P s = capTab P := by
      rw [hiff]
      omega
    refine ⟨?_, ?_, fun _ => ⟨?_, ?_⟩⟩
    · rw [writeTab_full P init (fuel + 1) hroom]
      simp [hcap]
    · simp only [insertTab]
      rw [writeTab_full P _ (fuel + 1) hroom]
      simp [hcap]
    · exact writeTab_full P init (fuel + 1) hroom
    · simp only [insertTab]
      exact writeTab_full P _ (fuel + 1) hroom

theorem c2_witness :
    ((writeTab P16 1 (freshTable P16) fun _ => (0 : Nat)).map Prod.fst = some none
      ↔ lenTab P16 (freshTable P16 (α := Nat)) = capTab P16) ∧
    ((insertTab P16 1 (freshTable P16) (0 : Nat)).map Prod.fst = some none
      ↔ lenTab P16 (freshTable P16 (α := Nat)) = capTab P16) ∧
    (lenTab P16 (freshTable P16 (α := Nat)) = capTab P16 →
      writeTab P16 1 (freshTable P16) (fun _ => (0 : Nat))
        = some (none, freshTable P16) ∧
      insertTab P16 1 (freshTable P16) (0 : Nat)
        = some (none, freshTable P16)) :=
  c2_insert_none_iff_full P16 (by decide) Reach.fresh (fun _ => 0) 0 0

-- -----------------------------------------------------------------------------
-- Claim C3: remove semantics
-- -----------------------------------------------------------------------------

/-- C3.  On every reachable state `remove(D)` returns true iff a non-null
entry was evicted from the slot addressed by D; a remove that returns false
leaves the table exactly unchanged (no metadata cell, no counter is
written); and removing the same identifier twice returns true then false. -/
theorem c3_remove_semantics (P : Params) (hOk : P.Ok) {α : Type}
    {s : TState α} (hreach : Reach P s) (k : Nat) (fuel : Nat) :
    (∀ r s', removeTab P (fuel + 1) s k = some (r, s') →
      (r = true ↔ s.data (detachedToConcrete P k) ≠ none)) ∧
    (s.data (detachedToConcrete P k) = none →
      removeTab P (fuel + 1) s k = some (false, s)) ∧
    (∀ s', removeTab P (fuel + 1) s k = some (true, s') →
      ∀ fuel2, removeTab P fuel2 s' k = some (false, s')) := by
  have hWF := WF_of_reach P hOk hreach
  refine ⟨?_, fun h => removeTab_absent P h _, ?_⟩
  · intro r s' heq
    cases hocc : s.data (detachedToConcrete P k) with
    | none =>
      rw [removeTab_absent P hocc] at heq
      simp only [Option.some.injEq, Prod.mk.injEq] at heq
      obtain ⟨h1, -⟩ := heq
      simp [← h1, hocc]
    | some w =>
      rw [removeTab_success P hOk hWF hocc fuel] at heq
      simp only [Option.some.injEq, Prod.mk.injEq] at heq
      obtain ⟨h1, -⟩ := heq
      simp [← h1, hocc]
  · intro s' heq fuel2
    cases hocc : s.data (detachedToConcrete P k) with
    | none =>
      rw [removeTab_absent P hocc] at heq
      simp at heq
    | some w =>
      rw [removeTab_success P hOk hWF hocc fuel] at heq
      simp only [Option.some.injEq, Prod.mk.injEq] at heq
      obtain ⟨-, h2⟩ := heq
      apply removeTab_absent
      rw [← h2]
      exact upd_self _ _ _

theorem c3_witness :
    (∀ r s', removeTab P16 1 (freshTable P16 (α := Nat)) 3 = some (r, s') →
      (r = true ↔ (freshTable P16 (α := Nat)).data
        (detachedToConcrete P16 3) ≠ none)) ∧
    ((freshTable P16 (α := Nat)).data (detachedToConcrete P16 3) = none →
      removeTab P16 1 (freshTable P16 (α := Nat)) 3
        = some (false, freshTable P16)) ∧
    (∀ s', removeTab P16 1 (freshTable P16 (α := Nat)) 3 = some (true, s') →
      ∀ fuel2, removeTab P16 fuel2 s' 3 = some (false, s')) :=
  c3_remove_semantics P16 (by decide) Reach.fresh 3 0

-- -----------------------------------------------------------------------------
-- Persistence of a stored value until its slot is removed
-- -----------------------------------------------------------------------------

/-- Executions from `s` by `write`/`insert` and `remove` whose removals never
address the physical slot `c`. -/
inductive ReachFrom (P : Params) {α : Type} (c : Nat) (s : TState α) :
    TState α → Prop where
  | refl : ReachFrom P c s s
  | write {t u : TState α} {fuel : Nat} {init : Nat → α} {r : Option Nat} :
      ReachFrom P c s t → writeTab P fuel t init = some (r, u) →
      ReachFrom P c s u
  | remove {t u : TState α} {fuel k : Nat} {r : Bool} :
      ReachFrom P c s t → k < USIZE → detachedToConcrete P k ≠ c →
      removeTab P fuel t k = some (r, u) → ReachFrom P c s u

/-- A value stored at slot `c` of a well-formed state survives any execution
that never removes an identifier addressing `c`: inserts only publish into
null slots, removals only touch their own slot. -/
theorem data_persists (P : Params) (hOk : P.Ok) {α : Type} {s t : TState α}
    {c : Nat} {v : α} (hWF : WF P s) (hv : s.data c = some v)
    (h : ReachFrom P c s t) : t.data c = some v ∧ WF P t := by
  induction h with
  | refl => exact ⟨hv, hWF⟩
  | @write t0 u fuel init r hst heq ih =>
    obtain ⟨hd, hw⟩ := ih
    by_cases hroom : t0.entries < P.LENGTH
    · cases fuel with
      | zero =>
        exfalso
        unfold writeTab at heq
        rw [reserveSlot_pos P hroom] at heq
        simp [acquireSlot] at heq
      | succ m =>
        rw [writeTab_success P hOk hw hroom init m] at heq
        simp only [Option.some.injEq, Prod.mk.injEq] at heq
        obtain ⟨-, h2⟩ := heq
        have hcv_none : t0.data (abstractToConcrete P
            (t0.slot (abstractToConcrete P t0.nextId))) = none :=
          hw.free_data _ (abstractToConcrete_lt P hOk.1 _)
            (cursor_not_reserved P hOk hw hroom)
        have hne : c ≠ abstractToConcrete P
            (t0.slot (abstractToConcrete P t0.nextId)) := by
          intro hcc
          rw [hcc, hcv_none] at hd
          exact Option.noConfusion hd
        constructor
        · rw [← h2]
          exact (upd_other _ _ hne).trans hd
        · exact WF_insert_state P hOk hw hroom _ (by rw [← h2]) (by rw [← h2])
            (by rw [← h2]) (by rw [← h2]) (by rw [← h2])
    · rw [writeTab_full P init fuel hroom] at heq
      simp only [Option.some.injEq, Prod.mk.injEq] at heq
      obtain ⟨-, h2⟩ := heq
      rw [← h2]
      exact ⟨hd, hw⟩
  | @remove t0 u fuel k r hst hk hkc heq ih =>
    obtain ⟨hd, hw⟩ := ih
    cases hocc : t0.data (detachedToConcrete P k) with
    | none =>
      rw [removeTab_absent P hocc] at heq
      simp only [Option.some.injEq, Prod.mk.injEq] at heq
      obtain ⟨-, h2⟩ := heq
      rw [← h2]
      exact ⟨hd, hw⟩
    | some w =>
      cases fuel with
      | zero =>
        exfalso
        rw [removeTab_def, hocc] at heq
        simp [releaseSlot, releaseLoop] at heq
      | succ m =>
        rw [removeTab_success P hOk hw hocc m] at heq
        simp only [Option.some.injEq, Prod.mk.injEq] at heq
        obtain ⟨-, h2⟩ := heq
        constructor
        · rw [← h2]
          exact (upd_other _ _ fun hcc => hkc hcc.symm).trans hd
        · exact WF_remove_state P hOk hw hk hocc (by rw [← h2]) (by rw [← h2])
            (by rw [← h2]) (by rw [← h2]) (by rw [← h2])

-- -----------------------------------------------------------------------------
-- Claim C1: single-threaded round-trip
-- -----------------------------------------------------------------------------

/-- C1.  On a reachable table with spare capacity, `insert v` returns an
identifier D whose `read` yields `Some v` and whose `exists` is true; the
value persists through any further operations that do not remove D's slot;
and removing D succeeds, after which `read` yields None and `exists` is
false. -/
theorem c1_insert_read_roundtrip (P : Params) (hOk : P.Ok) {α : Type}
    {s : TState α} (hreach : Reach P s) (hroom : lenTab P s < capTab P)
    (v : α) (fuel : Nat) :
    ∃ d s', insertTab P (fuel + 1) s v = some (some d, s') ∧
      readTab P s' d = some v ∧
      existsTab P s' d = true ∧
      (∀ t, ReachFrom P (detachedToConcrete P d) s' t →
        readTab P t d = some v) ∧
      ∃ s'', removeTab P 1 s' d = some (true, s'') ∧
        readTab P s'' d = none ∧ existsTab P s'' d = false := by
  have hWF := WF_of_reach P hOk hreach
  have hentries : s.entries < P.LENGTH := (lenTab_lt_cap_iff P hOk hWF).mp hroom
  have hpcN : abstractToConcrete P s.nextId < P.LENGTH :=
    abstractToConcrete_lt P hOk.1 _
  have hrlt : s.slot (abstractToConcrete P s.nextId) < USIZE :=
    hWF.slot_lt _ hpcN
  have hrne : s.slot (abstractToConcrete P s.nextId) ≠ RESERVED :=
    cursor_not_reserved P hOk hWF hentries
  have hcv_none : s.data
      (abstractToConcrete P (s.slot (abstractToConcrete P s.nextId))) = none :=
    hWF.free_data _ hpcN hrne
  have heq := writeTab_success P hOk hWF hentries (fun _ => v) fuel
  have hd2c : detachedToConcrete P
      (abstractToDetached P (s.slot (abstractToConcrete P s.nextId)))
      = abstractToConcrete P (s.slot (abstractToConcrete P s.nextId)) := by
    apply detachedToConcrete_abstractToDetached P hOk.1 ?_ hrlt
    obtain ⟨-, -, h3⟩ := hOk
    omega
  refine ⟨abstractToDetached P (s.slot (abstractToConcrete P s.nextId)),
    _, heq, ?_, ?_, ?_, ?_⟩
  · simp only [readTab, findTab, hd2c]
    exact upd_self _ _ _
  · simp only [existsTab, findTab, hd2c]
    rw [show (upd s.data
      (abstractToConcrete P (s.slot (abstractToConcrete P s.nextId)))
      (some ((fun _ => v) (abstractToDetached P
        (s.slot (abstractToConcrete P s.nextId)))))
      (abstractToConcrete P (s.slot (abstractToConcrete P s.nextId))))
      = some v from upd_self _ _ _]
    rfl
  · intro t ht
    have hWF' := WF_of_reach P hOk (Reach.write hreach heq)
    have hv' : (upd s.data
        (abstractToConcrete P (s.slot (abstractToConcrete P s.nextId)))
        (some v))
        (detachedToConcrete P (abstractToDetached P
          (s.slot (abstractToConcrete P s.nextId)))) = some v := by
      rw [hd2c]
      exact upd_self _ _ _
    have := data_persists P hOk hWF' hv' ht
    simp only [readTab, findTab]
    exact this.1
  · have hWF' := WF_of_reach P hOk (Reach.write hreach heq)
    have hocc' : (upd s.data
        (abstractToConcrete P (s.slot (abstractToConcrete P s.nextId)))
        (some v))
        (detachedToConcrete P (abstractToDetached P
          (s.slot (abstractToConcrete P s.nextId)))) = some v := by
      rw [hd2c]
      exact upd_self _ _ _
    refine ⟨_, removeTab_success P hOk hWF' hocc' 0, ?_, ?_⟩
    · simp only [readTab, findTab]
      exact upd_self _ _ _
    · simp only [existsTab, findTab]
      rw [show (upd (upd s.data
        (abstractToConcrete P (s.slot (abstractToConcrete P s.nextId)))
        (some v))
        (detachedToConcrete P (abstractToDetached P
          (s.slot (abstractToConcrete P s.nextId)))) none)
        (detachedToConcrete P (abstractToDetached P
          (s.slot (abstractToConcrete P s.nextId)))) = none from upd_self _ _ _]
      rfl

theorem c1_witness :
    ∃ d s', insertTab P16 1 (freshTable P16) (42 : Nat) = some (some d, s') ∧
      readTab P16 s' d = some 42 ∧
      existsTab P16 s' d = true ∧
      (∀ t, ReachFrom P16 (detachedToConcrete P16 d) s' t →
        readTab P16 t d = some 42) ∧
      ∃ s'', removeTab P16 1 s' d = some (true, s'') ∧
        readTab P16 s'' d = none ∧ existsTab P16 s'' d = false :=
  c1_insert_read_roundtrip P16 (by decide) Reach.fresh (by decide) 42 0

-- -----------------------------------------------------------------------------
-- Claim C5: ABA mitigation scenario
-- -----------------------------------------------------------------------------

/-- C5 counterexample.  Running `D = insert 1; remove D; D2 = insert 2` on a
fresh capacity-16 table yields D = 0 and D2 = 1: the allocation cursor has
advanced, so the second insert claims the *next* pristine slot, and
`concrete_of_detached D2 = 1 ≠ 0 = concrete_of_detached D` — contrary to the
claim that the same physical slot is reused immediately. -/
theorem c5_counterexample :
    ((insertTab P16 1 (freshTable P16) (1 : Nat)).bind fun r1 =>
      (r1.1).bind fun d1 =>
      (removeTab P16 1 r1.2 d1).bind fun r2 =>
      (insertTab P16 1 r2.2 2).bind fun r3 =>
      (r3.1).map fun d2 => (d1, d2, r2.1))
      = some (0, 1, true) ∧
    detachedToConcrete P16 1 ≠ detachedToConcrete P16 0 := by decide

/-- C5 as amended.  On a fresh capacity-16 table, after
`D = insert 1; remove D` the freed slot is reused only once the allocation
cursor wraps around the ring: the sixteenth subsequent insert returns
D2 = 16 with `concrete_of_detached D2 = concrete_of_detached D` while
`D2.into_bits ≠ D.into_bits` (the generation advanced by N). -/
theorem c5_aba_after_wraparound :
    ((insertTab P16 1 (freshTable P16) (1 : Nat)).bind fun r1 =>
      (removeTab P16 1 r1.2 0).bind fun r2 =>
      (insertStateN P16 1 2 15 r2.2).bind fun s3 =>
      (insertTab P16 1 s3 2).map fun r4 => (r1.1, r4.1))
      = some (some 0, some 16) ∧
    detachedToConcrete P16 16 = detachedToConcrete P16 0 ∧
    (16 : Nat) ≠ 0 := by decide

-- -----------------------------------------------------------------------------
-- Claim C9: weak_keys iteration
-- -----------------------------------------------------------------------------

/-- The iterator described by the specification's words: walk positions
`i = 0, …, N-1` in Concrete order, load `data[i]`, and for each non-null
slot yield the Detached obtained by treating `Abstract i` as the
generation-zero Abstract for slot `i`.  Written here only to be compared
against `weak_keys` from the source. -/
def weakKeysSpec (P : Params) {α : Type} (s : TState α) : List Nat :=
  (List.range P.LENGTH).filterMap fun i =>
    if (s.data i).isSome then some (abstractToDetached P i) else none

/-- C9 counterexample.  On a fresh capacity-32 table with two entries
(occupying slots 0 and 16), the source iterator yields [0, 16] — it walks in
Abstract order, loading `data[concrete_of (Abstract i)]` — while the walk
described by the claim (Concrete order, loading `data[i]`) yields [0, 8]. -/
theorem c9_counterexample :
    ((insertStateN P32 1 (7 : Nat) 2 (freshTable P32)).map fun s =>
      (weakKeysTab P32 s, weakKeysSpec P32 s))
      = some ([0, 16], [0, 8]) ∧
    ([0, 16] : List Nat) ≠ [0, 8] := by decide

theorem filterMap_if_map {β : Type} (p : Nat → Bool) (g h : Nat → β)
    (l : List Nat) (hgh : ∀ a ∈ l, g a = h a) :
    (l.filterMap fun a => if p a then some (g a) else none)
      = (l.filter p).map h := by
  induction l with
  | nil => rfl
  | cons x xs ih =>
    simp only [List.filterMap_cons, List.filter_cons]
    have hx := hgh x (by simp)
    by_cases hp : p x
    · simp [hp, hx, ih fun a ha => hgh a (by simp [ha])]
    · simp [hp, ih fun a ha => hgh a (by simp [ha])]

/-- C9 as amended.  `weak_keys` walks the iterator index `i = 0, …, cap-1`
in Abstract order, loading `data[concrete_of (Abstract i)]` under the
iterator's guard, and yields `detached_of (Abstract i)` for each non-null
slot — so the concrete parts of the yielded keys are exactly the occupied
slots `concrete_of (Abstract i)` in that order; on a sequentially filled
capacity-16 table it yields 16 identifiers whose concrete parts are
0, …, 15. -/
theorem c9_weak_keys (P : Params) (hOk : P.Ok) {α : Type} (s : TState α) :
    ((weakKeysTab P s).map (detachedToConcrete P)
      = ((List.range (capTab P)).filter fun i =>
          (s.data (abstractToConcrete P i)).isSome).map (abstractToConcrete P)) ∧
    ((insertStateN P16 1 (7 : Nat) 16 (freshTable P16)).map fun t =>
      (weakKeysTab P16 t).map (detachedToConcrete P16)) = some (List.range 16) := by
  constructor
  · unfold weakKeysTab
    rw [List.map_filterMap]
    have hstep : ∀ i : Nat,
        ((if (s.data (abstractToConcrete P i)).isSome then
            some (abstractToDetached P i) else none).map (detachedToConcrete P))
        = if (s.data (abstractToConcrete P i)).isSome then
            some (detachedToConcrete P (abstractToDetached P i)) else none := by
      intro i
      by_cases h : (s.data (abstractToConcrete P i)).isSome <;> simp [h]
    simp only [hstep]
    apply filterMap_if_map
    intro a ha
    apply detachedToConcrete_abstractToDetached P hOk.1
    · obtain ⟨-, -, h3⟩ := hOk
      omega
    · have h1 : a < capTab P := by simpa using ha
      have h2 := capTab_le P
      have h3 : P.LENGTH < USIZE :=
        lt_trans (length_lt_reserved P hOk.2.2) reserved_lt_usize
      omega
  · decide

theorem c9_witness :
    ((weakKeysTab P32 (freshTable P32 (α := Nat))).map (detachedToConcrete P32)
      = ((List.range (capTab P32)).filter fun i =>
          ((freshTable P32 (α := Nat)).data
            (abstractToConcrete P32 i)).isSome).map (abstractToConcrete P32)) ∧
    ((insertStateN P16 1 (7 : Nat) 16 (freshTable P16)).map fun t =>
      (weakKeysTab P16 t).map (detachedToConcrete P16)) = some (List.range 16) :=
  c9_weak_keys P32 (by decide) (freshTable P32)

-- -----------------------------------------------------------------------------
-- Claim C10: low-bits addressing
-- -----------------------------------------------------------------------------

/-- The components of a table state other than the metadata (free-list)
array: the three counters and the data array. -/
def stateProj {α : Type} (t : TState α) : Nat × Nat × Nat × (Nat → Option α) :=
  (t.entries, t.nextId, t.freeId, t.data)

theorem releaseLoop_proj (P : Params) {α : Type} (fuel : Nat) (v1 v2 : Nat) :
    ∀ s : TState α,
      (releaseLoop P fuel s v1).map stateProj
        = (releaseLoop P fuel s v2).map stateProj := by
  induction fuel with
  | zero => intro s; rfl
  | succ n ih =>
    intro s
    simp only [releaseLoop]
    split
    · rfl
    · exact ih _

theorem releaseSlot_proj (P : Params) {α : Type} (fuel : Nat) (s : TState α)
    (a1 a2 : Nat) :
    (releaseSlot P fuel s a1).map stateProj
      = (releaseSlot P fuel s a2).map stateProj := by
  unfold releaseSlot
  rw [Option.map_map, Option.map_map]
  have hcomp : (stateProj ∘ fun s1 : TState α =>
      { s1 with entries := (s1.entries + (U32 - 1)) % U32 })
      = (fun p : Nat × Nat × Nat × (Nat → Option α) =>
          ((p.1 + (U32 - 1)) % U32, p.2.1, p.2.2.1, p.2.2.2)) ∘ stateProj := rfl
  rw [hcomp, ← Option.map_map, ← Option.map_map,
    releaseLoop_proj P fuel (generateNextSlot P a1) (generateNextSlot P a2) s]

theorem removeTab_proj (P : Params) {α : Type} (fuel : Nat) (s : TState α)
    (k1 k2 : Nat) (hc : detachedToConcrete P k1 = detachedToConcrete P k2) :
    (removeTab P fuel s k1).map (fun q => (q.1, stateProj q.2))
      = (removeTab P fuel s k2).map (fun q => (q.1, stateProj q.2)) := by
  simp only [removeTab, hc]
  cases hd : s.data (detachedToConcrete P k2) with
  | none => rfl
  | some v =>
    rw [Option.map_map, Option.map_map]
    have hcomp : ((fun q : Bool × TState α => (q.1, stateProj q.2))
        ∘ fun s2 : TState α => (true, s2))
        = (fun p => ((true : Bool), p)) ∘ stateProj := rfl
    rw [hcomp, ← Option.map_map, ← Option.map_map,
      releaseSlot_proj P fuel
        { s with data := upd s.data (detachedToConcrete P k2) none }
        (detachedToAbstract P k1) (detachedToAbstract P k2)]

/-- C10 as amended.  Every keyed operation addresses the slot
`key & (N-1)`, which is always in bounds, so `find`, `read`, `exists` and
`with` behave identically on any two Detached keys with equal low `lg N`
bits; `remove` returns the same Boolean and produces the same counters and
data array for such keys, but the value it deposits into the free list
carries the key's generation bits, so the resulting metadata arrays may
differ (see the counterexample).  A stale identifier whose slot has been
reused acts on the slot's current occupant: after wrap-around reuse hands
out identifier 16 for slot 0 of a capacity-16 table, `remove` with the
stale key 0 returns true and evicts the entry named by identifier 16. -/
theorem c10_low_bits_addressing (P : Params) {α : Type} (k1 k2 : Nat)
    (hlow : k1 % P.LENGTH = k2 % P.LENGTH) (s : TState α) (fuel : Nat) :
    (detachedToConcrete P k1 = detachedToConcrete P k2 ∧
      detachedToConcrete P k1 < P.LENGTH) ∧
    (findTab P s k1 = findTab P s k2 ∧
      readTab P s k1 = readTab P s k2 ∧
      existsTab P s k1 = existsTab P s k2 ∧
      ∀ (β : Type) (f : α → β), withTab P s k1 f = withTab P s k2 f) ∧
    ((removeTab P fuel s k1).map (fun q => (q.1, stateProj q.2))
      = (removeTab P fuel s k2).map (fun q => (q.1, stateProj q.2))) ∧
    ((insertTab P16 1 (freshTable P16) (1 : Nat)).bind fun r0 =>
      (removeTab P16 1 r0.2 0).bind fun q0 =>
      (insertStateN P16 1 (1 : Nat) 15 q0.2).bind fun t =>
      (insertTab P16 1 t (9 : Nat)).bind fun r =>
      (removeTab P16 1 r.2 0).map fun q =>
        (r.1, q.1, readTab P16 q.2 16, existsTab P16 q.2 16))
      = some (some 16, true, none, false) := by
  have hc : detachedToConcrete P k1 = detachedToConcrete P k2 := by
    rw [detachedToConcrete_eq, detachedToConcrete_eq, hlow]
  refine ⟨⟨hc, ?_⟩, ⟨?_, ?_, ?_, ?_⟩, ?_, ?_⟩
  · rw [detachedToConcrete_eq]
    exact Nat.mod_lt _ (length_pos P)
  · unfold findTab; rw [hc]
  · unfold readTab findTab; rw [hc]
  · unfold existsTab findTab; rw [hc]
  · intro β f; unfold withTab findTab; rw [hc]
  · exact removeTab_proj P fuel s k1 k2 hc
  · decide

theorem c10_witness :
    (detachedToConcrete P16 0 = detachedToConcrete P16 16 ∧
      detachedToConcrete P16 0 < P16.LENGTH) ∧
    (findTab P16 (freshTable P16 (α := Nat)) 0
        = findTab P16 (freshTable P16) 16 ∧
      readTab P16 (freshTable P16 (α := Nat)) 0
        = readTab P16 (freshTable P16) 16 ∧
      existsTab P16 (freshTable P16 (α := Nat)) 0
        = existsTab P16 (freshTable P16 (α := Nat)) 16 ∧
      ∀ (β : Type) (f : Nat → β),
        withTab P16 (freshTable P16) 0 f = withTab P16 (freshTable P16) 16 f) ∧
    ((removeTab P16 1 (freshTable P16 (α := Nat)) 0).map
        (fun q => (q.1, stateProj q.2))
      = (removeTab P16 1 (freshTable P16) 16).map
        (fun q => (q.1, stateProj q.2))) ∧
    ((insertTab P16 1 (freshTable P16) (1 : Nat)).bind fun r0 =>
      (removeTab P16 1 r0.2 0).bind fun q0 =>
      (insertStateN P16 1 (1 : Nat) 15 q0.2).bind fun t =>
      (insertTab P16 1 t (9 : Nat)).bind fun r =>
      (removeTab P16 1 r.2 0).map fun q =>
        (r.1, q.1, readTab P16 q.2 16, existsTab P16 q.2 16))
      = some (some 16, true, none, false) :=
  c10_low_bits_addressing P16 0 16 (by decide) (freshTable P16) 1

/-- C10 counterexample to "behave identically".  The Detached keys 0 and 16
address the same slot of a capacity-16 table (their low 4 bits agree), yet
after one insert, `remove` with key 0 deposits the free-list value 16 at
metadata offset 0 while `remove` with key 16 deposits 32 there: the deposit
is derived from the key's generation bits, so the two removals leave
observably different tables. -/
theorem c10_counterexample :
    detachedToConcrete P16 16 = detachedToConcrete P16 0 ∧
    ((insertTab P16 1 (freshTable P16) (5 : Nat)).bind fun r =>
      (removeTab P16 1 r.2 0).map fun q => q.2.slot 0) = some 16 ∧
    ((insertTab P16 1 (freshTable P16) (5 : Nat)).bind fun r =>
      (removeTab P16 1 r.2 16).map fun q => q.2.slot 0) = some 32 ∧
    (16 : Nat) ≠ 32 := by decide
